import Mathlib

/-!
Verification of the encrypted-notes vault command-line program.

The program stores notes in a JSON file; each note holds a title, an
AES-256-GCM ciphertext of the content (base64-encoded) and the 12-byte
nonce used for that encryption (base64-encoded).  The working key is the
SHA-256 hash of the password.

Modelling conventions:
- a Rust byte is a natural number (meant to be below 256; overflow is made
  explicit with arithmetic modulo 256 or 2^32 where it matters);
- a Rust String or str is its UTF-8 byte sequence, a list of naturals;
- a computation that can panic at runtime is a PResult value;
- the 12 random bytes that OsRng writes into the nonce buffer inside
  encrypt_note_content are passed to the model as an explicit argument;
- the vault file is an Option of its byte contents, none when absent.
-/

set_option maxRecDepth 8000

/-- Outcome of a Rust computation that either returns a value or panics. -/
inductive PResult (α : Type) where
  | panic : PResult α
  | ret : α → PResult α
deriving DecidableEq, Repr

/-- A stored note: title, base64 ciphertext, base64 nonce, all as UTF-8 bytes. -/
structure Note where
  title : List Nat
  content : List Nat
  nonce : List Nat
deriving DecidableEq, Repr

/-- Big-endian byte decomposition of a natural number into n bytes. -/
def toBytesBE : Nat → Nat → List Nat
  | 0, _ => []
  | n + 1, x => toBytesBE n (x / 256) ++ [x % 256]

/-- Big-endian byte composition. -/
def fromBytesBE (l : List Nat) : Nat := l.foldl (fun acc b => acc * 256 + b) 0

/-- Fueled worker for chunking; fuel at least the length of the list is
always enough, one chunk consuming at least one element. -/
def chunksAux (s : Nat) : Nat → List Nat → List (List Nat)
  | _, [] => []
  | 0, x :: xs => [x :: xs]
  | fuel + 1, x :: xs => (x :: List.take (s - 1) xs) :: chunksAux s fuel (List.drop (s - 1) xs)

/-- Split a list into consecutive chunks of size s (s is positive at every use). -/
def chunks (s : Nat) (l : List Nat) : List (List Nat) := chunksAux s l.length l

/-- Pointwise xor; the length of the first argument gives the length of the
result (all uses in the program xor equal-length byte strings). -/
def xorBytes (a b : List Nat) : List Nat :=
  (List.range a.length).map (fun i => a.getD i 0 ^^^ b.getD i 0)

/- ## SHA-256 (FIPS 180-4), used by derive_key_from_password -/

/-- Truncation to a 32-bit word. -/
def w32 (x : Nat) : Nat := x % 4294967296

/-- Right rotation of a 32-bit word by n bits. -/
def rotr32 (n x : Nat) : Nat := w32 ((x >>> n) ||| (x <<< (32 - n)))

/-- SHA-256 round constants. -/
def sha256K : List Nat := [
  1116352408, 1899447441, 3049323471, 3921009573, 961987163, 1508970993, 2453635748, 2870763221,
  3624381080, 310598401, 607225278, 1426881987, 1925078388, 2162078206, 2614888103, 3248222580,
  3835390401, 4022224774, 264347078, 604807628, 770255983, 1249150122, 1555081692, 1996064986,
  2554220882, 2821834349, 2952996808, 3210313671, 3336571891, 3584528711, 113926993, 338241895,
  666307205, 773529912, 1294757372, 1396182291, 1695183700, 1986661051, 2177026350, 2456956037,
  2730485921, 2820302411, 3259730800, 3345764771, 3516065817, 3600352804, 4094571909, 275423344,
  430227734, 506948616, 659060556, 883997877, 958139571, 1322822218, 1537002063, 1747873779,
  1955562222, 2024104815, 2227730452, 2361852424, 2428436474, 2756734187, 3204031479, 3329325298]

/-- SHA-256 initial hash value. -/
def sha256Init : List Nat :=
  [1779033703, 3144134277, 1013904242, 2773480762, 1359893119, 2600822924, 528734635, 1541459225]

/-- SHA-256 message padding: append the 0x80 byte, zero bytes, and the
64-bit big-endian bit length, up to a multiple of 64 bytes. -/
def sha256Pad (msg : List Nat) : List Nat :=
  msg ++ 128 :: List.replicate ((64 + 55 - msg.length % 64) % 64) 0 ++ toBytesBE 8 (8 * msg.length)

/-- Group bytes into big-endian 32-bit words. -/
def bytesToWordsBE (l : List Nat) : List Nat := (chunks 4 l).map fromBytesBE

/-- Extend a 16-word message block by k schedule words. -/
def sha256Extend (w : List Nat) : Nat → List Nat
  | 0 => w
  | k + 1 =>
    let i := w.length
    let s0 := rotr32 7 (w.getD (i - 15) 0) ^^^ rotr32 18 (w.getD (i - 15) 0) ^^^ (w.getD (i - 15) 0 >>> 3)
    let s1 := rotr32 17 (w.getD (i - 2) 0) ^^^ rotr32 19 (w.getD (i - 2) 0) ^^^ (w.getD (i - 2) 0 >>> 10)
    sha256Extend (w ++ [w32 (w.getD (i - 16) 0 + s0 + w.getD (i - 7) 0 + s1)]) k

/-- One SHA-256 compression round. -/
def sha256Round (w : List Nat) (st : List Nat) (i : Nat) : List Nat :=
  match st with
  | [a, b, c, d, e, f, g, h] =>
    let S1 := rotr32 6 e ^^^ rotr32 11 e ^^^ rotr32 25 e
    let ch := (e &&& f) ^^^ ((e ^^^ 4294967295) &&& g)
    let t1 := w32 (h + S1 + ch + sha256K.getD i 0 + w.getD i 0)
    let S0 := rotr32 2 a ^^^ rotr32 13 a ^^^ rotr32 22 a
    let mj := (a &&& b) ^^^ (a &&& c) ^^^ (b &&& c)
    let t2 := w32 (S0 + mj)
    [w32 (t1 + t2), a, b, c, w32 (d + t1), e, f, g]
  | _ => st

/-- SHA-256 compression of one 16-word block into the running state. -/
def sha256Compress (state block : List Nat) : List Nat :=
  let w := sha256Extend block 48
  let fin := (List.range 64).foldl (sha256Round w) state
  (state.zip fin).map (fun p => w32 (p.1 + p.2))

/-- Fold the compression function over all blocks. -/
def sha256Blocks (state : List Nat) : List (List Nat) → List Nat
  | [] => state
  | b :: rest => sha256Blocks (sha256Compress state b) rest

/-- SHA-256 of a byte sequence, as 32 bytes. -/
def sha256 (msg : List Nat) : List Nat :=
  ((sha256Blocks sha256Init ((chunks 64 (sha256Pad msg)).map bytesToWordsBE)).map
    (toBytesBE 4)).flatten

/-- Derives the 256-bit AES key from a password: a single SHA-256 pass over
the password bytes. -/
def derive_key_from_password (password : List Nat) : List Nat := sha256 password

/- ## AES-256 block cipher (FIPS 197) -/

/-- The AES S-box. -/
def sbox : List Nat := [
  99, 124, 119, 123, 242, 107, 111, 197, 48, 1, 103, 43, 254, 215, 171, 118,
  202, 130, 201, 125, 250, 89, 71, 240, 173, 212, 162, 175, 156, 164, 114, 192,
  183, 253, 147, 38, 54, 63, 247, 204, 52, 165, 229, 241, 113, 216, 49, 21,
  4, 199, 35, 195, 24, 150, 5, 154, 7, 18, 128, 226, 235, 39, 178, 117,
  9, 131, 44, 26, 27, 110, 90, 160, 82, 59, 214, 179, 41, 227, 47, 132,
  83, 209, 0, 237, 32, 252, 177, 91, 106, 203, 190, 57, 74, 76, 88, 207,
  208, 239, 170, 251, 67, 77, 51, 133, 69, 249, 2, 127, 80, 60, 159, 168,
  81, 163, 64, 143, 146, 157, 56, 245, 188, 182, 218, 33, 16, 255, 243, 210,
  205, 12, 19, 236, 95, 151, 68, 23, 196, 167, 126, 61, 100, 93, 25, 115,
  96, 129, 79, 220, 34, 42, 144, 136, 70, 238, 184, 20, 222, 94, 11, 219,
  224, 50, 58, 10, 73, 6, 36, 92, 194, 211, 172, 98, 145, 149, 228, 121,
  231, 200, 55, 109, 141, 213, 78, 169, 108, 86, 244, 234, 101, 122, 174, 8,
  186, 120, 37, 46, 28, 166, 180, 198, 232, 221, 116, 31, 75, 189, 139, 138,
  112, 62, 181, 102, 72, 3, 246, 14, 97, 53, 87, 185, 134, 193, 29, 158,
  225, 248, 152, 17, 105, 217, 142, 148, 155, 30, 135, 233, 206, 85, 40, 223,
  140, 161, 137, 13, 191, 230, 66, 104, 65, 153, 45, 15, 176, 84, 187, 22]

/-- The same S-box packed little-endian into one natural number, byte b at
bit offset 8b (a form the evaluator handles quickly). -/
def sboxPacked : Nat :=
  2869618975290639062594974519597816386035077209210385677284518162336985023502962151465775969507961862820568736543004676439868535775640188584098917533413284844376797297285941524888791401501466624530423689326528054213168201056672989590893583853414110162539122864583953358348775951166211353578440977400428507475679327181038682772945817200201960445064847785221508011893952350688324234443749897213621340677040612747745615276448919507935121141307752692835344166708617454322778699219895865633266409040561742768581056182730443599545881830075941537620590442514083341749674612746994879540562701631131184186066652929592955206755

/-- S-box substitution of one byte. -/
def subByte (b : Nat) : Nat := sboxPacked >>> (8 * b) &&& 255

/-- Multiplication by x in GF(2^8) with the AES reduction polynomial. -/
def xtime (b : Nat) : Nat := if b < 128 then 2 * b else 2 * b % 256 ^^^ 27

/-- AES round constants (enough for AES-256 key expansion). -/
def rcon : List Nat := [1, 2, 4, 8, 16, 32, 64, 128, 27, 54]

/-- Left rotation of a 4-byte word. -/
def rotWord : List Nat → List Nat
  | [] => []
  | a :: rest => rest ++ [a]

/-- Xor a constant into the first byte of a word. -/
def xorHead (r : Nat) : List Nat → List Nat
  | [] => []
  | a :: rest => (a ^^^ r) :: rest

/-- AES-256 key expansion: emit k further 4-byte words, word i next, given
the eight preceding words w0..w7 (w7 the most recent). -/
def keyExpandWords : Nat → Nat → List Nat → List Nat → List Nat → List Nat →
    List Nat → List Nat → List Nat → List Nat → List (List Nat)
  | 0, _, _, _, _, _, _, _, _, _ => []
  | k + 1, i, w0, w1, w2, w3, w4, w5, w6, w7 =>
    let t :=
      if i % 8 = 0 then xorHead (rcon.getD (i / 8 - 1) 0) ((rotWord w7).map subByte)
      else if i % 8 = 4 then w7.map subByte
      else w7
    xorBytes w0 t ::
      keyExpandWords k (i + 1) w1 w2 w3 w4 w5 w6 w7 (xorBytes w0 t)

/-- The full AES-256 key schedule: 60 words from the 8-word key (a Rust key
is 32 bytes by type, giving exactly eight initial words). -/
def keySchedule (key : List Nat) : List (List Nat) :=
  match chunks 4 key with
  | [k0, k1, k2, k3, k4, k5, k6, k7] =>
    [k0, k1, k2, k3, k4, k5, k6, k7] ++ keyExpandWords 52 8 k0 k1 k2 k3 k4 k5 k6 k7
  | w => w

/-- Round key r as 16 bytes (bytes of words 4r..4r+3 in order). -/
def roundKey (w : List (List Nat)) (r : Nat) : List Nat := ((w.drop (4 * r)).take 4).flatten

/-- SubBytes on a 16-byte state (stored in input order, s[4c+r]). -/
def subBytes (s : List Nat) : List Nat := s.map subByte

/-- ShiftRows on a 16-byte state: row r rotates left by r. -/
def shiftRows (s : List Nat) : List Nat :=
  (List.range 16).map (fun i => s.getD (4 * ((i / 4 + i % 4) % 4) + i % 4) 0)

/-- MixColumns on one 4-byte column. -/
def mixColumn : List Nat → List Nat
  | [a0, a1, a2, a3] =>
    [xtime a0 ^^^ (xtime a1 ^^^ a1) ^^^ a2 ^^^ a3,
     a0 ^^^ xtime a1 ^^^ (xtime a2 ^^^ a2) ^^^ a3,
     a0 ^^^ a1 ^^^ xtime a2 ^^^ (xtime a3 ^^^ a3),
     (xtime a0 ^^^ a0) ^^^ a1 ^^^ a2 ^^^ xtime a3]
  | l => l

/-- MixColumns on the full state. -/
def mixColumns (s : List Nat) : List Nat := ((chunks 4 s).map mixColumn).flatten

/-- One middle AES round. -/
def aesRound (rk s : List Nat) : List Nat := xorBytes (mixColumns (shiftRows (subBytes s))) rk

/-- AES-256 encryption of one 16-byte block. -/
def aes256Block (key block : List Nat) : List Nat :=
  let w := keySchedule key
  let s0 := xorBytes block (roundKey w 0)
  let sMain := (List.range' 1 13).foldl (fun s r => aesRound (roundKey w r) s) s0
  xorBytes (shiftRows (subBytes sMain)) (roundKey w 14)

/- ## GCM mode (NIST SP 800-38D) for AES-256 -/

/-- The GHASH reduction constant R = 0xe1 followed by 15 zero bytes. -/
def gfR : Nat := 225 <<< 120

/-- One pass of GHASH multiplication: Z accumulates, V is doubled-down X,
the bits of Y are consumed most-significant first, k iterations remain. -/
def gfMulAux (Z V Y : Nat) : Nat → Nat
  | 0 => Z
  | k + 1 =>
    let Z' := if (Y >>> 127) &&& 1 = 1 then Z ^^^ V else Z
    let V' := if V &&& 1 = 1 then (V >>> 1) ^^^ gfR else V >>> 1
    gfMulAux Z' V' ((Y <<< 1) % 2 ^ 128) k

/-- Multiplication in GF(2^128) with the GCM bit order. -/
def gfMul (X Y : Nat) : Nat := gfMulAux 0 X Y 128

/-- GHASH: fold blocks into the accumulator Y. -/
def ghashBlocks (H : Nat) (Y : Nat) : List (List Nat) → Nat
  | [] => Y
  | b :: rest => ghashBlocks H (gfMul (Y ^^^ fromBytesBE b) H) rest

/-- Increment the low 32 bits of a 16-byte counter block. -/
def inc32 (b : List Nat) : List Nat :=
  let x := fromBytesBE b
  toBytesBE 16 (x / 2 ^ 32 * 2 ^ 32 + (x + 1) % 2 ^ 32)

/-- Fueled CTR keystream worker: n bytes of keystream starting at counter
block cb, one cipher call per 16 bytes; fuel at least n is always enough. -/
def gcmKeystreamAux (key : List Nat) : Nat → List Nat → Nat → List Nat
  | 0, _, _ => []
  | fuel + 1, cb, n =>
    if n = 0 then []
    else (aes256Block key cb).take (min 16 n) ++ gcmKeystreamAux key fuel (inc32 cb) (n - 16)

/-- The first n bytes of the CTR keystream starting after counter block j0. -/
def gcmKeystream (key j0 : List Nat) (n : Nat) : List Nat :=
  gcmKeystreamAux key n (inc32 j0) n

/-- Zero padding of a byte string up to a multiple of 16. -/
def padBlock (l : List Nat) : List Nat := l ++ List.replicate ((16 - l.length % 16) % 16) 0

/-- The GCM authentication tag over ciphertext ct (no associated data):
GHASH of the padded ciphertext and the length block, masked with E(K, J0). -/
def gcmTag (key nonce ct : List Nat) : List Nat :=
  let H := fromBytesBE (aes256Block key (List.replicate 16 0))
  let S := ghashBlocks H 0 (chunks 16 (padBlock ct ++ toBytesBE 8 0 ++ toBytesBE 8 (8 * ct.length)))
  xorBytes (toBytesBE 16 S) (aes256Block key (nonce ++ [0, 0, 0, 1]))

/-- AES-256-GCM encryption with a 12-byte nonce: ciphertext followed by the
16-byte tag, as the aes-gcm crate returns it. -/
def aes256GcmEncrypt (key nonce pt : List Nat) : List Nat :=
  let C := xorBytes pt (gcmKeystream key (nonce ++ [0, 0, 0, 1]) pt.length)
  C ++ gcmTag key nonce C

/-- AES-256-GCM decryption of ciphertext-with-trailing-tag: none when the
input is shorter than a tag, exceeds the GCM length bound, or fails tag
verification. -/
def aes256GcmDecrypt (key nonce ct : List Nat) : Option (List Nat) :=
  if ct.length < 16 then none
  else if 2 ^ 36 + 16 < ct.length - 16 then none
  else
    let C := ct.take (ct.length - 16)
    if gcmTag key nonce C = ct.drop (ct.length - 16) then
      some (xorBytes C (gcmKeystream key (nonce ++ [0, 0, 0, 1]) C.length))
    else none

/- ## Base64 (RFC 4648 standard alphabet with padding), as the base64 crate
STANDARD engine behaves: encoding always pads; decoding requires padded
canonical input and rejects foreign symbols and nonzero trailing bits. -/

/-- The standard base64 alphabet as ASCII codes. -/
def b64Char (s : Nat) : Nat :=
  if s < 26 then 65 + s
  else if s < 52 then 97 + (s - 26)
  else if s < 62 then 48 + (s - 52)
  else if s = 62 then 43
  else 47

/-- Inverse of the alphabet: the sextet of an ASCII code, none outside it. -/
def b64Sextet (c : Nat) : Option Nat :=
  if 65 ≤ c ∧ c ≤ 90 then some (c - 65)
  else if 97 ≤ c ∧ c ≤ 122 then some (c - 97 + 26)
  else if 48 ≤ c ∧ c ≤ 57 then some (c - 48 + 52)
  else if c = 43 then some 62
  else if c = 47 then some 63
  else none

/-- Base64 encoding of a byte sequence into ASCII codes. -/
def base64Encode : List Nat → List Nat
  | [] => []
  | [b0] => [b64Char (b0 / 4), b64Char (b0 % 4 * 16), 61, 61]
  | [b0, b1] => [b64Char (b0 / 4), b64Char (b0 % 4 * 16 + b1 / 16), b64Char (b1 % 16 * 4), 61]
  | b0 :: b1 :: b2 :: rest =>
    b64Char (b0 / 4) :: b64Char (b0 % 4 * 16 + b1 / 16) ::
      b64Char (b1 % 16 * 4 + b2 / 64) :: b64Char (b2 % 64) :: base64Encode rest

/-- Base64 decoding of ASCII codes: none on any length not a multiple of
four, any symbol outside the alphabet, misplaced padding, or nonzero
trailing bits. -/
def base64Decode : List Nat → Option (List Nat)
  | [] => some []
  | c0 :: c1 :: c2 :: c3 :: rest =>
    match b64Sextet c0, b64Sextet c1 with
    | some s0, some s1 =>
      if c2 = 61 then
        if c3 = 61 ∧ rest = [] ∧ s1 % 16 = 0 then some [s0 * 4 + s1 / 16] else none
      else
        match b64Sextet c2 with
        | some s2 =>
          if c3 = 61 then
            if rest = [] ∧ s2 % 4 = 0 then some [s0 * 4 + s1 / 16, s1 % 16 * 16 + s2 / 4]
            else none
          else
            match b64Sextet c3 with
            | some s3 =>
              (base64Decode rest).map
                (fun tl => (s0 * 4 + s1 / 16) :: (s1 % 16 * 16 + s2 / 4) :: (s2 % 4 * 64 + s3) :: tl)
            | none => none
        | none => none
    | _, _ => none
  | _ => none

/- ## UTF-8 validity (what String::from_utf8 and read_to_string check) -/

/-- Whether a byte is a UTF-8 continuation byte (0x80..0xBF). -/
def isCont (b : Nat) : Bool := b / 64 = 2

/-- Consume one continuation byte. -/
def cont1 : List Nat → Option (List Nat)
  | b :: r => if isCont b then some r else none
  | [] => none

/-- Consume one byte restricted to the range lo..hi. -/
def contRange (lo hi : Nat) : List Nat → Option (List Nat)
  | b :: r => if lo ≤ b ∧ b ≤ hi then some r else none
  | [] => none

/-- Consume one well-formed UTF-8 character (shortest form, surrogates
excluded, per RFC 3629), returning the remaining bytes. -/
def utf8Char : List Nat → Option (List Nat)
  | [] => none
  | b :: rest =>
    if b < 128 then some rest
    else if 194 ≤ b ∧ b ≤ 223 then cont1 rest
    else if b = 224 then (contRange 160 191 rest).bind cont1
    else if (225 ≤ b ∧ b ≤ 236) ∨ b = 238 ∨ b = 239 then (cont1 rest).bind cont1
    else if b = 237 then (contRange 128 159 rest).bind cont1
    else if b = 240 then ((contRange 144 191 rest).bind cont1).bind cont1
    else if 241 ≤ b ∧ b ≤ 243 then ((cont1 rest).bind cont1).bind cont1
    else if b = 244 then ((contRange 128 143 rest).bind cont1).bind cont1
    else none

theorem cont1_length {xs r : List Nat} (h : cont1 xs = some r) : r.length < xs.length := by
  cases xs with
  | nil => simp [cont1] at h
  | cons b t =>
    simp only [cont1] at h
    split at h
    · cases h; simp
    · cases h

theorem contRange_length {lo hi : Nat} {xs r : List Nat} (h : contRange lo hi xs = some r) :
    r.length < xs.length := by
  cases xs with
  | nil => simp [contRange] at h
  | cons b t =>
    simp only [contRange] at h
    split at h
    · cases h; simp
    · cases h

theorem utf8Char_length {l r : List Nat} (h : utf8Char l = some r) : r.length < l.length := by
  cases l with
  | nil => simp [utf8Char] at h
  | cons b rest =>
    simp only [utf8Char] at h
    split at h
    · cases h; simp
    · split at h
      · have := cont1_length h; simp; omega
      · split at h
        · obtain ⟨m, hm, hc⟩ := Option.bind_eq_some.mp h
          have := contRange_length hm
          have := cont1_length hc
          simp; omega
        · split at h
          · obtain ⟨m, hm, hc⟩ := Option.bind_eq_some.mp h
            have := cont1_length hm
            have := cont1_length hc
            simp; omega
          · split at h
            · obtain ⟨m, hm, hc⟩ := Option.bind_eq_some.mp h
              have := contRange_length hm
              have := cont1_length hc
              simp; omega
            · split at h
              · obtain ⟨m, hm1, hc⟩ := Option.bind_eq_some.mp h
                obtain ⟨m2, hm2, hc2⟩ := Option.bind_eq_some.mp hm1
                have := contRange_length hm2
                have := cont1_length hc2
                have := cont1_length hc
                simp; omega
              · split at h
                · obtain ⟨m, hm1, hc⟩ := Option.bind_eq_some.mp h
                  obtain ⟨m2, hm2, hc2⟩ := Option.bind_eq_some.mp hm1
                  have := cont1_length hm2
                  have := cont1_length hc2
                  have := cont1_length hc
                  simp; omega
                · split at h
                  · obtain ⟨m, hm1, hc⟩ := Option.bind_eq_some.mp h
                    obtain ⟨m2, hm2, hc2⟩ := Option.bind_eq_some.mp hm1
                    have := contRange_length hm2
                    have := cont1_length hc2
                    have := cont1_length hc
                    simp; omega
                  · cases h

/-- Fueled worker for UTF-8 validation; the fuel only bounds recursion
depth and any fuel at least the length of the input gives the same answer. -/
def utf8ValidAux : Nat → List Nat → Bool
  | _, [] => true
  | 0, _ :: _ => false
  | fuel + 1, b :: rest =>
    match utf8Char (b :: rest) with
    | some r => utf8ValidAux fuel r
    | none => false

/-- UTF-8 well-formedness of a byte sequence: what String::from_utf8 and
read_to_string accept. -/
def utf8ValidB (l : List Nat) : Bool := utf8ValidAux l.length l

/- ## The note envelope operations -/

/-- The ciphertext/nonce pair that encrypt_note_content base64-encodes,
given the 12 random bytes the OS provided for the nonce. -/
def encryptedPair (content key nonce_bytes : List Nat) : List Nat × List Nat :=
  (base64Encode (aes256GcmEncrypt key nonce_bytes content), base64Encode nonce_bytes)

/-- Encrypt note content under key: random nonce bytes are an explicit
argument; the expect call turns the length-bound error of the cipher into a
panic. -/
def encrypt_note_content (content key nonce_bytes : List Nat) : PResult (List Nat × List Nat) :=
  if 2 ^ 36 < content.length then .panic
  else .ret (encryptedPair content key nonce_bytes)

/-- Decrypt note content: base64-decode the ciphertext then the nonce (a
failed decode is a none result), panic if the nonce is not 12 bytes (the
from_slice length assertion), then authenticated decryption and the UTF-8
check of String::from_utf8. -/
def decrypt_note_content (ciphertext_b64 nonce_b64 key : List Nat) : PResult (Option (List Nat)) :=
  match base64Decode ciphertext_b64 with
  | none => .ret none
  | some ct =>
    match base64Decode nonce_b64 with
    | none => .ret none
    | some nonce_bytes =>
      if nonce_bytes.length = 12 then
        .ret (match aes256GcmDecrypt key nonce_bytes ct with
              | none => none
              | some pt => if utf8ValidB pt then some pt else none)
      else .panic

/- ## Concrete data for the key-sensitivity analysis

GHASH is linear over GF(2^128), so for two fixed derived keys and a chosen
nonce there is an affine family of ciphertexts whose authentication tags
under the two keys coincide. The constants below are one such instance,
found by solving the corresponding GF(2) linear system: the plaintext
c3content encrypted under the key of c3pw1 with nonce c3nonce passes tag
verification under the key of c3pw2 and decrypts to c3recovered. -/

/-- ASCII bytes of the password pw1. -/
def c3pw1 : List Nat := [112, 119, 49]

/-- ASCII bytes of the password pw2. -/
def c3pw2 : List Nat := [112, 119, 50]

/-- A 12-byte nonce under which the tag collision below exists. -/
def c3nonce : List Nat := [0, 0, 0, 0, 0, 0, 0, 0, 0, 8, 17, 56]

/-- A 32-byte valid-UTF-8 plaintext whose encryption under the key of c3pw1
with nonce c3nonce also authenticates under the key of c3pw2. -/
def c3content : List Nat :=
  [109, 115, 118, 117, 37, 83, 83, 105, 65, 0, 104, 125, 57, 22, 42, 56,
   225, 128, 128, 114, 113, 103, 87, 104, 59, 91, 97, 7, 85, 53, 55, 62]

/-- The spurious valid-UTF-8 plaintext recovered under the mismatched key. -/
def c3recovered : List Nat :=
  [119, 81, 25, 77, 1, 7, 66, 62, 50, 69, 97, 78, 82, 30, 46, 64,
   84, 105, 39, 50, 63, 77, 25, 81, 87, 47, 62, 54, 82, 104, 27, 21]

/-- Base64 of the ciphertext-with-tag of c3content under the key of c3pw1. -/
def c3ct64 : List Nat :=
  [73, 54, 84, 90, 98, 51, 66, 78, 51, 89, 121, 82, 113, 71, 54, 52,
   122, 118, 100, 121, 69, 86, 86, 81, 101, 65, 90, 117, 107, 65, 67, 65,
   65, 73, 65, 65, 65, 65, 65, 65, 65, 65, 66, 66, 116, 103, 74, 47,
   49, 49, 90, 110, 107, 51, 111, 118, 120, 65, 51, 119, 77, 77, 112, 105]

/-- Base64 of the nonce c3nonce. -/
def c3n64 : List Nat :=
  [65, 65, 65, 65, 65, 65, 65, 65, 65, 65, 65, 65, 67, 66, 69, 52]

/- ## JSON persistence of the note collection (serde_json) -/

/-- ASCII codes of the key title. -/
def titleKey : List Nat := [116, 105, 116, 108, 101]

/-- ASCII codes of the key content. -/
def contentKey : List Nat := [99, 111, 110, 116, 101, 110, 116]

/-- ASCII codes of the key nonce. -/
def nonceKey : List Nat := [110, 111, 110, 99, 101]

/-- Lowercase hex digit as an ASCII code. -/
def hexDigit (n : Nat) : Nat := if n < 10 then 48 + n else 97 + (n - 10)

/-- JSON escaping of one byte of string content: quote, backslash and the
control bytes get escapes, everything else passes through. -/
def escapeByte (b : Nat) : List Nat :=
  if b = 34 then [92, 34]
  else if b = 92 then [92, 92]
  else if b = 8 then [92, 98]
  else if b = 9 then [92, 116]
  else if b = 10 then [92, 110]
  else if b = 12 then [92, 102]
  else if b = 13 then [92, 114]
  else if b < 32 then [92, 117, 48, 48, hexDigit (b / 16), hexDigit (b % 16)]
  else [b]

/-- JSON escaping of string content. -/
def escapeString (s : List Nat) : List Nat := (s.map escapeByte).flatten

/-- A JSON string literal: quoted escaped content. -/
def quoteString (s : List Nat) : List Nat := 34 :: (escapeString s ++ [34])

/-- A newline followed by n spaces of indentation. -/
def newlineIndent (n : Nat) : List Nat := 10 :: List.replicate n 32

/-- One field line of a pretty-printed note object. -/
def serializeField (key val : List Nat) : List Nat :=
  newlineIndent 4 ++ quoteString key ++ [58, 32] ++ quoteString val

/-- A note as a pretty-printed JSON object at array-item depth. -/
def serializeNote (n : Note) : List Nat :=
  [123] ++ serializeField titleKey n.title ++ [44] ++ serializeField contentKey n.content
    ++ [44] ++ serializeField nonceKey n.nonce ++ newlineIndent 2 ++ [125]

/-- The comma-separated pretty-printed items of the notes array, each on its
own indented line. -/
def serializeItems : List Note → List Nat
  | [] => []
  | [n] => newlineIndent 2 ++ serializeNote n
  | n :: rest => newlineIndent 2 ++ serializeNote n ++ [44] ++ serializeItems rest

/-- The bytes serde_json::to_string_pretty produces for the collection;
save_notes writes exactly these to the vault file. -/
def save_notes (notes : List Note) : List Nat :=
  if notes.isEmpty then [91, 93] else [91] ++ serializeItems notes ++ (10 :: [93])

/-- JSON whitespace. -/
def isJsonWs (b : Nat) : Bool := b = 32 || b = 9 || b = 10 || b = 13

/-- Skip JSON whitespace. -/
def skipWs : List Nat → List Nat
  | [] => []
  | b :: rest => if isJsonWs b then skipWs rest else b :: rest

/-- Value of an ASCII hex digit, upper or lower case. -/
def hexVal (c : Nat) : Option Nat :=
  if 48 ≤ c ∧ c ≤ 57 then some (c - 48)
  else if 97 ≤ c ∧ c ≤ 102 then some (c - 97 + 10)
  else if 65 ≤ c ∧ c ≤ 70 then some (c - 65 + 10)
  else none

/-- UTF-8 encoding of one unicode scalar value. -/
def encodeUtf8 (cp : Nat) : List Nat :=
  if cp < 128 then [cp]
  else if cp < 2048 then [192 + cp / 64, 128 + cp % 64]
  else if cp < 65536 then [224 + cp / 4096, 128 + cp / 64 % 64, 128 + cp % 64]
  else [240 + cp / 262144, 128 + cp / 4096 % 64, 128 + cp / 64 % 64, 128 + cp % 64]

/-- Fueled worker parsing the body of a JSON string after its opening
quote, returning the unescaped content bytes and the input remaining after
the closing quote.  Escapes follow the JSON grammar, with surrogate pairs
combined and lone surrogates rejected; unescaped control bytes are
rejected. -/
def parseStringBodyAux : Nat → List Nat → Option (List Nat × List Nat)
  | _, [] => none
  | 0, _ :: _ => none
  | fuel + 1, b :: rest =>
    if b = 34 then some ([], rest)
    else if b = 92 then
      match rest with
      | [] => none
      | e :: rest2 =>
        if e = 34 ∨ e = 92 ∨ e = 47 then (parseStringBodyAux fuel rest2).map (fun p => (e :: p.1, p.2))
        else if e = 98 then (parseStringBodyAux fuel rest2).map (fun p => (8 :: p.1, p.2))
        else if e = 116 then (parseStringBodyAux fuel rest2).map (fun p => (9 :: p.1, p.2))
        else if e = 110 then (parseStringBodyAux fuel rest2).map (fun p => (10 :: p.1, p.2))
        else if e = 102 then (parseStringBodyAux fuel rest2).map (fun p => (12 :: p.1, p.2))
        else if e = 114 then (parseStringBodyAux fuel rest2).map (fun p => (13 :: p.1, p.2))
        else if e = 117 then
          match rest2 with
          | h1 :: h2 :: h3 :: h4 :: rest3 =>
            match hexVal h1, hexVal h2, hexVal h3, hexVal h4 with
            | some v1, some v2, some v3, some v4 =>
              let cp := v1 * 4096 + v2 * 256 + v3 * 16 + v4
              if 55296 ≤ cp ∧ cp ≤ 56319 then
                match rest3 with
                | 92 :: 117 :: g1 :: g2 :: g3 :: g4 :: rest4 =>
                  match hexVal g1, hexVal g2, hexVal g3, hexVal g4 with
                  | some u1, some u2, some u3, some u4 =>
                    let lo := u1 * 4096 + u2 * 256 + u3 * 16 + u4
                    if 56320 ≤ lo ∧ lo ≤ 57343 then
                      (parseStringBodyAux fuel rest4).map (fun p =>
                        (encodeUtf8 (65536 + (cp - 55296) * 1024 + (lo - 56320)) ++ p.1, p.2))
                    else none
                  | _, _, _, _ => none
                | _ => none
              else if 56320 ≤ cp ∧ cp ≤ 57343 then none
              else (parseStringBodyAux fuel rest3).map (fun p => (encodeUtf8 cp ++ p.1, p.2))
            | _, _, _, _ => none
          | _ => none
        else none
    else if b < 32 then none
    else (parseStringBodyAux fuel rest).map (fun p => (b :: p.1, p.2))

/-- Parse the body of a JSON string after its opening quote (wrapper
providing the fuel; one character is consumed per step, so the length of
the input is enough fuel). -/
def parseStringBody (l : List Nat) : Option (List Nat × List Nat) :=
  parseStringBodyAux l.length l

/-- One ASCII decimal digit. -/
def isDigit (b : Nat) : Bool := 48 ≤ b && b ≤ 57

/-- Skip a nonempty digit run. -/
def skipDigits : List Nat → Option (List Nat)
  | b :: rest =>
    if isDigit b then
      match rest with
      | c :: _ => if isDigit c then skipDigits rest else some rest
      | [] => some []
    else none
  | [] => none

/-- Skip a JSON number after its optional leading minus. -/
def skipNumberBody (s : List Nat) : Option (List Nat) := do
  let s ← match s with
          | 48 :: rest => pure rest
          | b :: _ => if isDigit b then skipDigits s else none
          | [] => none
  let s ← match s with
          | 46 :: rest => skipDigits rest
          | _ => pure s
  match s with
  | 101 :: rest | 69 :: rest =>
    match rest with
    | 43 :: rest2 | 45 :: rest2 => skipDigits rest2
    | _ => skipDigits rest
  | _ => pure s

mutual

/-- Skip one JSON value of any shape (used for unknown object fields);
fueled recursion for nested arrays and objects. -/
def skipValue : Nat → List Nat → Option (List Nat)
  | 0, _ => none
  | _ + 1, [] => none
  | fuel + 1, b :: rest =>
    if b = 34 then (parseStringBody rest).map (fun p => p.2)
    else if b = 110 then
      match rest with | 117 :: 108 :: 108 :: r => some r | _ => none
    else if b = 116 then
      match rest with | 114 :: 117 :: 101 :: r => some r | _ => none
    else if b = 102 then
      match rest with | 97 :: 108 :: 115 :: 101 :: r => some r | _ => none
    else if b = 45 then skipNumberBody rest
    else if isDigit b then skipNumberBody (b :: rest)
    else if b = 91 then
      match skipWs rest with
      | 93 :: r => some r
      | r => skipArrayItems fuel r
    else if b = 123 then
      match skipWs rest with
      | 125 :: r => some r
      | r => skipObjectItems fuel r
    else none

/-- Skip the comma-separated items of an array, then the closing bracket. -/
def skipArrayItems : Nat → List Nat → Option (List Nat)
  | 0, _ => none
  | fuel + 1, s => do
    let s2 ← skipValue fuel s
    match skipWs s2 with
    | 44 :: r => skipArrayItems fuel (skipWs r)
    | 93 :: r => some r
    | _ => none

/-- Skip the key-value pairs of an object, then the closing brace. -/
def skipObjectItems : Nat → List Nat → Option (List Nat)
  | 0, _ => none
  | fuel + 1, s =>
    match s with
    | 34 :: r => do
      let p ← parseStringBody r
      match skipWs p.2 with
      | 58 :: r2 => do
        let s2 ← skipValue fuel (skipWs r2)
        match skipWs s2 with
        | 44 :: r3 => skipObjectItems fuel (skipWs r3)
        | 125 :: r3 => some r3
        | _ => none
      | _ => none
    | _ => none

end



/-- Parse the colon and JSON string value of a string-typed field; a value
of any other JSON shape is a type error for a String field. -/
def parseStringValue (s : List Nat) : Option (List Nat × List Nat) :=
  match skipWs s with
  | 58 :: r =>
    match skipWs r with
    | 34 :: r2 => parseStringBody r2
    | _ => none
  | _ => none

/-- Parse the fields of a note object, the cursor standing on a key: known
keys fill their slot (a second occurrence is a duplicate-field error),
unknown keys have their value skipped; at the closing brace all three
fields must be present. -/
def parseFields : Nat → Option (List Nat) → Option (List Nat) → Option (List Nat) →
    List Nat → Option (Note × List Nat)
  | 0, _, _, _, _ => none
  | fuel + 1, tSlot, cSlot, nSlot, s =>
    match s with
    | 34 :: r =>
      (parseStringBody r).bind (fun k =>
        (if k.1 = titleKey then
          if tSlot.isSome then none
          else (parseStringValue k.2).map (fun v => (some v.1, cSlot, nSlot, v.2))
        else if k.1 = contentKey then
          if cSlot.isSome then none
          else (parseStringValue k.2).map (fun v => (tSlot, some v.1, nSlot, v.2))
        else if k.1 = nonceKey then
          if nSlot.isSome then none
          else (parseStringValue k.2).map (fun v => (tSlot, cSlot, some v.1, v.2))
        else
          match skipWs k.2 with
          | 58 :: r2 => (skipValue (r2.length + 1) (skipWs r2)).map
              (fun s2 => (tSlot, cSlot, nSlot, s2))
          | _ => none).bind (fun q =>
        match skipWs q.2.2.2 with
        | 44 :: r3 => parseFields fuel q.1 q.2.1 q.2.2.1 (skipWs r3)
        | 125 :: r3 =>
          match q.1, q.2.1, q.2.2.1 with
          | some t, some c, some n => some (⟨t, c, n⟩, r3)
          | _, _, _ => none
        | _ => none))
    | _ => none

/-- Parse one note, which must be a JSON object. -/
def parseNote (s : List Nat) : Option (Note × List Nat) :=
  match s with
  | 123 :: r => parseFields (r.length + 1) none none none (skipWs r)
  | _ => none

/-- Parse the comma-separated notes of a nonempty array, ending after the
closing bracket. -/
def parseElems : Nat → List Nat → Option (List Note × List Nat)
  | 0, _ => none
  | fuel + 1, s =>
    (parseNote s).bind (fun p =>
      match skipWs p.2 with
      | 44 :: r => (parseElems fuel (skipWs r)).map (fun q => (p.1 :: q.1, q.2))
      | 93 :: r => some ([p.1], r)
      | _ => none)

/-- What serde_json::from_str for a note collection accepts: a JSON array
of note objects and trailing whitespace. -/
def from_str_notes (bytes : List Nat) : Option (List Note) :=
  match skipWs bytes with
  | 91 :: r =>
    (match skipWs r with
     | 93 :: r2 => some (([] : List Note), r2)
     | r2 => parseElems (r2.length + 1) r2).bind
      (fun body => if skipWs body.2 = [] then some body.1 else none)
  | _ => none

/-- Load all notes from the vault file: an absent file is an empty
collection; a present file is read as UTF-8 (read_to_string's unwrap
panics on invalid UTF-8) and any parse failure falls back to the empty
collection (unwrap_or_default). -/
def load_notes (file : Option (List Nat)) : PResult (List Note) :=
  match file with
  | none => .ret []
  | some bytes =>
    if utf8ValidB bytes then .ret ((from_str_notes bytes).getD []) else .panic

/- ## The command branches of main -/

/-- The user-visible messages the program prints, at constructor
granularity (exact formatting is presentation only). -/
inductive VaultMsg where
  | noteAdded
  | contentIs (pt : List Nat)
  | decryptFailed
  | notFound
  | deleted (title : List Nat)
  | cannotDelete (title : List Nat)
  | notFoundOrMismatch
deriving DecidableEq, Repr

/-- Whether a note decrypts under key (panics not withstanding). -/
def decOk (key : List Nat) (n : Note) : Bool :=
  match decrypt_note_content n.content n.nonce key with
  | .ret (some _) => true
  | _ => false

/-- The New branch: encrypt, append the new note, save. -/
def runNew (notes : List Note) (title content key nonce_bytes : List Nat) :
    PResult (List Note × List Nat × VaultMsg) :=
  match encrypt_note_content content key nonce_bytes with
  | .panic => .panic
  | .ret (c, nb) =>
    let notes' := notes ++ [⟨title, c, nb⟩]
    .ret (notes', save_notes notes', .noteAdded)

/-- The Read branch: the first note with a matching title decides the
outcome; no note past it is looked at. -/
def runRead (notes : List Note) (title key : List Nat) : PResult VaultMsg :=
  match notes.find? (fun n => n.title == title) with
  | none => .ret .notFound
  | some n =>
    match decrypt_note_content n.content n.nonce key with
    | .panic => .panic
    | .ret none => .ret .decryptFailed
    | .ret (some pt) => .ret (.contentIs pt)

/-- The retain pass of the Delete branch, in storage order: a note with the
requested title is dropped exactly when it decrypts, with one message per
matching note; other notes are kept untouched. -/
def deleteRetain (title key : List Nat) : List Note → PResult (List Note × List VaultMsg)
  | [] => .ret ([], [])
  | n :: rest =>
    if n.title = title then
      match decrypt_note_content n.content n.nonce key with
      | .panic => .panic
      | .ret (some _) =>
        match deleteRetain title key rest with
        | .panic => .panic
        | .ret (kept, msgs) => .ret (kept, .deleted n.title :: msgs)
      | .ret none =>
        match deleteRetain title key rest with
        | .panic => .panic
        | .ret (kept, msgs) => .ret (n :: kept, .cannotDelete n.title :: msgs)
    else
      match deleteRetain title key rest with
      | .panic => .panic
      | .ret (kept, msgs) => .ret (n :: kept, msgs)

/-- The predicate deciding which notes the Delete branch keeps. -/
def deleteKeeps (title key : List Nat) (n : Note) : Bool :=
  !(n.title == title && decOk key n)

/-- The message the Delete branch prints for a note, none when the title
differs. -/
def deleteMsg (title key : List Nat) (n : Note) : Option VaultMsg :=
  if n.title = title then
    some (if decOk key n then .deleted n.title else .cannotDelete n.title)
  else none

/-- The Delete branch: run the retain pass, then save exactly when the
collection shrank; the middle component is the vault file afterwards. -/
def runDelete (notes : List Note) (title key : List Nat) (file : Option (List Nat)) :
    PResult (List Note × Option (List Nat) × List VaultMsg) :=
  match deleteRetain title key notes with
  | .panic => .panic
  | .ret (kept, msgs) =>
    if kept.length < notes.length then .ret (kept, some (save_notes kept), msgs)
    else .ret (kept, file, msgs ++ [.notFoundOrMismatch])

/- ## Basic byte-list lemmas -/

theorem getD_lt_of_forall {l : List Nat} {m : Nat} (hm : 0 < m)
    (h : ∀ x ∈ l, x < m) (i : Nat) : l.getD i 0 < m := by
  rcases Nat.lt_or_ge i l.length with hi | hi
  · rw [List.getD_eq_getElem _ _ hi]
    exact h _ (l.getElem_mem hi)
  · rw [List.getD_eq_default _ _ hi]
    exact hm

theorem toBytesBE_length (n x : Nat) : (toBytesBE n x).length = n := by
  induction n generalizing x with
  | zero => rfl
  | succ k ih => simp [toBytesBE, ih]

theorem toBytesBE_lt (n x : Nat) : ∀ b ∈ toBytesBE n x, b < 256 := by
  induction n generalizing x with
  | zero => simp [toBytesBE]
  | succ k ih =>
    intro b hb
    simp only [toBytesBE, List.mem_append, List.mem_singleton] at hb
    rcases hb with hb | hb
    · exact ih _ _ hb
    · omega

theorem mapRange_getD (n : Nat) (f : Nat → Nat) (i : Nat) :
    ((List.range n).map f).getD i 0 = if i < n then f i else 0 := by
  rcases Nat.lt_or_ge i n with h | h
  · rw [List.getD_eq_getElem _ _ (by simpa using h)]
    simp [h]
  · rw [List.getD_eq_default _ _ (by simpa using h)]
    simp [Nat.not_lt_of_ge h]

theorem map_getD_range_self (l : List Nat) :
    (List.range l.length).map (fun i => l.getD i 0) = l := by
  induction l with
  | nil => rfl
  | cons x xs ih =>
    simp only [List.length_cons, List.range_succ_eq_map, List.map_cons, List.map_map,
      List.getD_cons_zero]
    refine congrArg (x :: ·) ?_
    have : ((fun i => (x :: xs).getD i 0) ∘ Nat.succ) = fun i => xs.getD i 0 := by
      funext i; simp [Function.comp, List.getD_cons_succ]
    rw [this, ih]

theorem xorBytes_length (a b : List Nat) : (xorBytes a b).length = a.length := by
  simp [xorBytes]

theorem xorBytes_getD (a b : List Nat) (i : Nat) (h : i < a.length) :
    (xorBytes a b).getD i 0 = a.getD i 0 ^^^ b.getD i 0 := by
  simp [xorBytes, mapRange_getD, h]

theorem xorBytes_cancel (a b : List Nat) : xorBytes (xorBytes a b) b = a := by
  have hl : (xorBytes a b).length = a.length := xorBytes_length a b
  calc xorBytes (xorBytes a b) b
      = (List.range (xorBytes a b).length).map
          (fun i => (xorBytes a b).getD i 0 ^^^ b.getD i 0) := rfl
    _ = (List.range a.length).map (fun i => (xorBytes a b).getD i 0 ^^^ b.getD i 0) := by
        rw [hl]
    _ = (List.range a.length).map (fun i => a.getD i 0) := by
        apply List.map_congr_left
        intro i hi
        rw [xorBytes_getD a b i (List.mem_range.mp hi), Nat.xor_assoc, Nat.xor_self,
          Nat.xor_zero]
    _ = a := map_getD_range_self a

theorem xorBytes_lt {a b : List Nat} (ha : ∀ x ∈ a, x < 256) (hb : ∀ x ∈ b, x < 256) :
    ∀ x ∈ xorBytes a b, x < 256 := by
  intro x hx
  simp only [xorBytes, List.mem_map, List.mem_range] at hx
  obtain ⟨i, _, rfl⟩ := hx
  have h256 : (256 : Nat) = 2 ^ 8 := rfl
  rw [h256]
  exact Nat.xor_lt_two_pow (h256 ▸ getD_lt_of_forall (by omega) ha i)
    (h256 ▸ getD_lt_of_forall (by omega) hb i)

/- ## Byte bounds through the cipher -/

theorem sbox_lt : ∀ x ∈ sbox, x < 256 := by decide

theorem subByte_packed_agrees : ∀ b, b < 256 → subByte b = sbox.getD b 0 := by decide

theorem subByte_lt (b : Nat) : subByte b < 256 := by
  have := Nat.and_le_right (n := sboxPacked >>> (8 * b)) (m := 255)
  unfold subByte
  omega

theorem subBytes_lt (s : List Nat) : ∀ x ∈ subBytes s, x < 256 := by
  intro x hx
  simp only [subBytes, List.mem_map] at hx
  obtain ⟨b, _, rfl⟩ := hx
  exact subByte_lt b

theorem shiftRows_lt {s : List Nat} (hs : ∀ x ∈ s, x < 256) : ∀ x ∈ shiftRows s, x < 256 := by
  intro x hx
  simp only [shiftRows, List.mem_map, List.mem_range] at hx
  obtain ⟨i, _, rfl⟩ := hx
  exact getD_lt_of_forall (by omega) hs _

theorem xtime_lt (b : Nat) (hb : b < 256) : xtime b < 256 := by
  unfold xtime
  split
  · omega
  · have h256 : (256 : Nat) = 2 ^ 8 := rfl
    rw [h256]
    exact Nat.xor_lt_two_pow (by omega) (by omega)

theorem mixColumn_lt {c : List Nat} (hc : ∀ x ∈ c, x < 256) : ∀ x ∈ mixColumn c, x < 256 := by
  match c with
  | [a0, a1, a2, a3] =>
    have h0 := hc a0 (by simp)
    have h1 := hc a1 (by simp)
    have h2 := hc a2 (by simp)
    have h3 := hc a3 (by simp)
    have h256 : (256 : Nat) = 2 ^ 8 := rfl
    have hx : ∀ x y : Nat, x < 256 → y < 256 → x ^^^ y < 256 := fun x y hx hy =>
      h256 ▸ Nat.xor_lt_two_pow (h256 ▸ hx) (h256 ▸ hy)
    intro x hxm
    simp only [mixColumn, List.mem_cons, List.not_mem_nil, or_false] at hxm
    rcases hxm with rfl | rfl | rfl | rfl <;>
      repeat' first | assumption | exact xtime_lt _ h0 | exact xtime_lt _ h1 |
        exact xtime_lt _ h2 | exact xtime_lt _ h3 | apply hx
  | [] => simp [mixColumn]
  | [a] => simpa [mixColumn] using hc
  | [a, b] => simpa [mixColumn] using hc
  | [a, b, c'] => simpa [mixColumn] using hc
  | a :: b :: c' :: d :: e :: rest => simpa [mixColumn] using hc

theorem rcon_lt : ∀ x ∈ rcon, x < 256 := by decide

theorem rotWord_lt {w : List Nat} (hw : ∀ x ∈ w, x < 256) : ∀ x ∈ rotWord w, x < 256 := by
  cases w with
  | nil => simp [rotWord]
  | cons a rest =>
    intro x hx
    simp only [rotWord, List.mem_append, List.mem_singleton] at hx
    rcases hx with hx | rfl
    · exact hw _ (by simp [hx])
    · exact hw _ (by simp)

theorem xorHead_lt {w : List Nat} {r : Nat} (hw : ∀ x ∈ w, x < 256) (hr : r < 256) :
    ∀ x ∈ xorHead r w, x < 256 := by
  cases w with
  | nil => simp [xorHead]
  | cons a rest =>
    intro x hx
    simp only [xorHead, List.mem_cons] at hx
    rcases hx with rfl | hx
    · have h256 : (256 : Nat) = 2 ^ 8 := rfl
      rw [h256]
      exact Nat.xor_lt_two_pow (h256 ▸ hw a (by simp)) (h256 ▸ hr)
    · exact hw _ (by simp [hx])

theorem getD_word_lt {w : List (List Nat)} (hw : ∀ v ∈ w, ∀ x ∈ v, x < 256) (i : Nat) :
    ∀ x ∈ w.getD i [], x < 256 := by
  rcases Nat.lt_or_ge i w.length with hi | hi
  · rw [List.getD_eq_getElem _ _ hi]
    exact hw _ (w.getElem_mem hi)
  · rw [List.getD_eq_default _ _ hi]
    simp

theorem keyExpandWords_lt {w0 w1 w2 w3 w4 w5 w6 w7 : List Nat}
    (h0 : ∀ x ∈ w0, x < 256) (h1 : ∀ x ∈ w1, x < 256) (h2 : ∀ x ∈ w2, x < 256)
    (h3 : ∀ x ∈ w3, x < 256) (h4 : ∀ x ∈ w4, x < 256) (h5 : ∀ x ∈ w5, x < 256)
    (h6 : ∀ x ∈ w6, x < 256) (h7 : ∀ x ∈ w7, x < 256) (k i : Nat) :
    ∀ v ∈ keyExpandWords k i w0 w1 w2 w3 w4 w5 w6 w7, ∀ x ∈ v, x < 256 := by
  induction k generalizing i w0 w1 w2 w3 w4 w5 w6 w7 with
  | zero => simp [keyExpandWords]
  | succ k ih =>
    have ht : ∀ x ∈ (if i % 8 = 0 then
          xorHead (rcon.getD (i / 8 - 1) 0) ((rotWord w7).map subByte)
        else if i % 8 = 4 then w7.map subByte
        else w7), x < 256 := by
      split
      · apply xorHead_lt
        · intro x hx
          obtain ⟨b, _, rfl⟩ := List.mem_map.mp hx
          exact subByte_lt b
        · exact getD_lt_of_forall (by omega) rcon_lt _
      · split
        · intro x hx
          obtain ⟨b, _, rfl⟩ := List.mem_map.mp hx
          exact subByte_lt b
        · exact h7
    intro v hv
    rw [keyExpandWords] at hv
    rcases List.mem_cons.mp hv with rfl | hv
    · exact xorBytes_lt h0 ht
    · exact ih h1 h2 h3 h4 h5 h6 h7 (xorBytes_lt h0 ht) _ v hv

theorem chunksAux_mem {s fuel : Nat} {l c : List Nat} (hc : c ∈ chunksAux s fuel l) :
    ∀ x ∈ c, x ∈ l := by
  induction fuel generalizing l c with
  | zero =>
    cases l with
    | nil => simp [chunksAux] at hc
    | cons a as =>
      rw [chunksAux] at hc
      rcases List.mem_singleton.mp hc with rfl
      exact fun x hx =>
        by rcases List.mem_cons.mp hx with rfl | hx <;> simp [hx]
  | succ fuel ih =>
    cases l with
    | nil => simp [chunksAux] at hc
    | cons a as =>
      rw [chunksAux] at hc
      rcases List.mem_cons.mp hc with rfl | hc
      · intro y hy
        rcases List.mem_cons.mp hy with rfl | hy
        · simp
        · simp [List.mem_of_mem_take hy]
      · intro y hy
        have := ih hc y hy
        simp [List.mem_of_mem_drop this]

theorem chunks_mem_lt {l : List Nat} (hl : ∀ x ∈ l, x < 256) (s : Nat) :
    ∀ c ∈ chunks s l, ∀ x ∈ c, x < 256 :=
  fun c hc x hx => hl x (chunksAux_mem hc x hx)

theorem keySchedule_lt {key : List Nat} (hk : ∀ x ∈ key, x < 256) :
    ∀ v ∈ keySchedule key, ∀ x ∈ v, x < 256 := by
  unfold keySchedule
  split
  · rename_i k0 k1 k2 k3 k4 k5 k6 k7 hchunks
    have hall := chunks_mem_lt hk 4
    rw [hchunks] at hall
    have g0 : ∀ x ∈ k0, x < 256 := hall _ (by simp)
    have g1 : ∀ x ∈ k1, x < 256 := hall _ (by simp)
    have g2 : ∀ x ∈ k2, x < 256 := hall _ (by simp)
    have g3 : ∀ x ∈ k3, x < 256 := hall _ (by simp)
    have g4 : ∀ x ∈ k4, x < 256 := hall _ (by simp)
    have g5 : ∀ x ∈ k5, x < 256 := hall _ (by simp)
    have g6 : ∀ x ∈ k6, x < 256 := hall _ (by simp)
    have g7 : ∀ x ∈ k7, x < 256 := hall _ (by simp)
    intro v hv
    rcases List.mem_append.mp hv with hv | hv
    · simp only [List.mem_cons, List.not_mem_nil, or_false] at hv
      rcases hv with rfl | rfl | rfl | rfl | rfl | rfl | rfl | rfl <;> assumption
    · exact keyExpandWords_lt g0 g1 g2 g3 g4 g5 g6 g7 52 8 v hv
  · exact chunks_mem_lt hk 4

theorem roundKey_lt {w : List (List Nat)} (hw : ∀ v ∈ w, ∀ x ∈ v, x < 256) (r : Nat) :
    ∀ x ∈ roundKey w r, x < 256 := by
  intro x hx
  obtain ⟨v, hv, hxv⟩ := List.mem_flatten.mp hx
  exact hw _ (List.mem_of_mem_drop (List.mem_of_mem_take hv)) _ hxv

theorem aes256Block_lt {key : List Nat} (hk : ∀ x ∈ key, x < 256) (block : List Nat) :
    ∀ x ∈ aes256Block key block, x < 256 := by
  unfold aes256Block
  exact xorBytes_lt (shiftRows_lt (subBytes_lt _)) (roundKey_lt (keySchedule_lt hk) 14)

theorem aes256Block_length (key block : List Nat) : (aes256Block key block).length = 16 := by
  unfold aes256Block
  rw [xorBytes_length]
  simp [shiftRows]

/- ## GCM lengths and bounds -/

theorem gcmKeystreamAux_length (key : List Nat) :
    ∀ fuel cb n, n ≤ fuel → (gcmKeystreamAux key fuel cb n).length = n := by
  intro fuel
  induction fuel with
  | zero => intro cb n h; interval_cases n; rfl
  | succ fuel ih =>
    intro cb n h
    rw [gcmKeystreamAux]
    split
    · simp [by assumption]
    · rw [List.length_append, List.length_take, aes256Block_length,
        ih (inc32 cb) (n - 16) (by omega)]
      omega

theorem gcmKeystream_length (key j0 : List Nat) (n : Nat) :
    (gcmKeystream key j0 n).length = n :=
  gcmKeystreamAux_length key n (inc32 j0) n le_rfl

theorem gcmKeystreamAux_lt {key : List Nat} (hk : ∀ x ∈ key, x < 256) :
    ∀ fuel cb n, ∀ x ∈ gcmKeystreamAux key fuel cb n, x < 256 := by
  intro fuel
  induction fuel with
  | zero => simp [gcmKeystreamAux]
  | succ fuel ih =>
    intro cb n x hx
    rw [gcmKeystreamAux] at hx
    split at hx
    · simp at hx
    · rcases List.mem_append.mp hx with hx | hx
      · exact aes256Block_lt hk _ _ (List.mem_of_mem_take hx)
      · exact ih _ _ x hx

theorem gcmKeystream_lt {key : List Nat} (hk : ∀ x ∈ key, x < 256) (j0 : List Nat) (n : Nat) :
    ∀ x ∈ gcmKeystream key j0 n, x < 256 :=
  gcmKeystreamAux_lt hk n (inc32 j0) n

theorem gcmTag_length (key nonce ct : List Nat) : (gcmTag key nonce ct).length = 16 := by
  unfold gcmTag
  rw [xorBytes_length, toBytesBE_length]

theorem gcmTag_lt {key : List Nat} (hk : ∀ x ∈ key, x < 256) (nonce ct : List Nat) :
    ∀ x ∈ gcmTag key nonce ct, x < 256 := by
  unfold gcmTag
  exact xorBytes_lt (toBytesBE_lt _ _) (aes256Block_lt hk _)

theorem aes256GcmEncrypt_length (key nonce pt : List Nat) :
    (aes256GcmEncrypt key nonce pt).length = pt.length + 16 := by
  unfold aes256GcmEncrypt
  rw [List.length_append, xorBytes_length, gcmTag_length]

theorem aes256GcmEncrypt_lt {key pt : List Nat} (hk : ∀ x ∈ key, x < 256)
    (hp : ∀ x ∈ pt, x < 256) (nonce : List Nat) :
    ∀ x ∈ aes256GcmEncrypt key nonce pt, x < 256 := by
  unfold aes256GcmEncrypt
  intro x hx
  rcases List.mem_append.mp hx with hx | hx
  · exact xorBytes_lt hp (gcmKeystream_lt hk _ _) _ hx
  · exact gcmTag_lt hk _ _ _ hx

/-- Authenticated decryption inverts encryption for any key, nonce and
plaintext within the GCM length bound. -/
theorem aes256Gcm_decrypt_encrypt (key nonce pt : List Nat) (hlen : pt.length ≤ 2 ^ 36) :
    aes256GcmDecrypt key nonce (aes256GcmEncrypt key nonce pt) = some pt := by
  unfold aes256GcmEncrypt aes256GcmDecrypt
  set C := xorBytes pt (gcmKeystream key (nonce ++ [0, 0, 0, 1]) pt.length) with hC
  have hClen : C.length = pt.length := by rw [hC, xorBytes_length]
  have hTlen : (gcmTag key nonce C).length = 16 := gcmTag_length key nonce C
  have hlen' : (C ++ gcmTag key nonce C).length = pt.length + 16 := by
    rw [List.length_append, hClen, hTlen]
  rw [hlen']
  rw [if_neg (by omega), if_neg (by omega)]
  have htake : (C ++ gcmTag key nonce C).take (pt.length + 16 - 16) = C := by
    have : pt.length + 16 - 16 = C.length := by omega
    rw [this, List.take_left]
  have hdrop : (C ++ gcmTag key nonce C).drop (pt.length + 16 - 16) = gcmTag key nonce C := by
    have : pt.length + 16 - 16 = C.length := by omega
    rw [this, List.drop_left]
  rw [htake, hdrop, if_pos rfl, hClen, hC]
  rw [xorBytes_cancel]

/- ## Base64 round trip -/

theorem b64Sextet_b64Char : ∀ s, s < 64 → b64Sextet (b64Char s) = some s := by decide

theorem b64Char_ne_61 : ∀ s, s < 64 → b64Char s ≠ 61 := by decide

theorem base64_roundtrip {l : List Nat} (h : ∀ b ∈ l, b < 256) :
    base64Decode (base64Encode l) = some l := by
  induction l using base64Encode.induct with
  | case1 => rfl
  | case2 b0 =>
    have hb0 := h b0 (by simp)
    rw [base64Encode, base64Decode]
    rw [b64Sextet_b64Char _ (by omega), b64Sextet_b64Char _ (by omega)]
    dsimp only
    rw [if_pos rfl, if_pos (by refine ⟨rfl, rfl, by omega⟩)]
    simp only [Option.some.injEq, List.cons.injEq, and_true]
    omega
  | case3 b0 b1 =>
    have hb0 := h b0 (by simp)
    have hb1 := h b1 (by simp)
    rw [base64Encode, base64Decode]
    rw [b64Sextet_b64Char _ (by omega), b64Sextet_b64Char _ (by omega)]
    dsimp only
    rw [if_neg (b64Char_ne_61 _ (by omega)), b64Sextet_b64Char _ (by omega)]
    dsimp only
    rw [if_pos rfl, if_pos (by refine ⟨rfl, by omega⟩)]
    simp only [Option.some.injEq, List.cons.injEq, and_true]
    omega
  | case4 b0 b1 b2 rest ih =>
    have hb0 := h b0 (by simp)
    have hb1 := h b1 (by simp)
    have hb2 := h b2 (by simp)
    have hrest : ∀ b ∈ rest, b < 256 := fun b hb => h b (by simp [hb])
    rw [base64Encode, base64Decode]
    rw [b64Sextet_b64Char _ (by omega), b64Sextet_b64Char _ (by omega)]
    dsimp only
    rw [if_neg (b64Char_ne_61 _ (by omega)), b64Sextet_b64Char _ (by omega)]
    dsimp only
    rw [if_neg (b64Char_ne_61 _ (by omega)), b64Sextet_b64Char _ (by omega)]
    dsimp only
    rw [ih hrest]
    simp only [Option.map_some', Option.some.injEq, List.cons.injEq, and_true]
    refine ⟨by omega, by omega, by omega⟩

/- ## UTF-8 structure lemmas -/

theorem cont1_inv {xs r : List Nat} (h : cont1 xs = some r) :
    ∃ b, xs = b :: r ∧ isCont b = true := by
  cases xs with
  | nil => simp [cont1] at h
  | cons b t =>
    simp only [cont1] at h
    split at h
    · cases h; exact ⟨b, rfl, by assumption⟩
    · cases h

theorem contRange_inv {lo hi : Nat} {xs r : List Nat} (h : contRange lo hi xs = some r) :
    ∃ b, xs = b :: r ∧ lo ≤ b ∧ b ≤ hi := by
  cases xs with
  | nil => simp [contRange] at h
  | cons b t =>
    simp only [contRange] at h
    split at h
    · cases h; exact ⟨b, rfl, by assumption⟩
    · cases h

theorem isCont_range {b : Nat} (h : isCont b = true) : 128 ≤ b ∧ b ≤ 191 := by
  simp only [isCont, decide_eq_true_eq] at h
  omega

/-- A successful utf8Char step consumes either one ASCII byte or a full
multibyte character whose bytes are all in 128..244 and which re-parses in
front of any continuation of the input. -/
theorem utf8Char_decomp {l r : List Nat} (h : utf8Char l = some r) :
    (∃ b, b < 128 ∧ l = b :: r) ∨
    (∃ c, l = c ++ r ∧ c ≠ [] ∧ (∀ x ∈ c, 128 ≤ x ∧ x < 245) ∧
      ∀ t, utf8Char (c ++ t) = some t) := by
  cases l with
  | nil => simp [utf8Char] at h
  | cons b rest =>
    rw [utf8Char] at h
    split at h
    · cases h; exact Or.inl ⟨b, by assumption, rfl⟩
    · rename_i hnb0
      split at h
      · rename_i hc0
        obtain ⟨b1, rfl, hc1⟩ := cont1_inv h
        have h1 := isCont_range hc1
        refine Or.inr ⟨[b, b1], rfl, by simp, ?_, ?_⟩
        · intro x hx; simp at hx; rcases hx with rfl | rfl <;> omega
        · intro t
          simp only [List.cons_append, List.nil_append]
          rw [utf8Char]
          simp [hnb0, hc0, cont1, hc1]
      · rename_i hn1
        split at h
        · rename_i hc0
          obtain ⟨m, hm, hcc⟩ := Option.bind_eq_some.mp h
          obtain ⟨b1, rfl, hb1, hb1h⟩ := contRange_inv hm
          obtain ⟨b2, rfl, hc2⟩ := cont1_inv hcc
          have h2 := isCont_range hc2
          subst hc0
          refine Or.inr ⟨[224, b1, b2], rfl, by simp, ?_, ?_⟩
          · intro x hx; simp at hx; rcases hx with rfl | rfl | rfl <;> omega
          · intro t
            simp only [List.cons_append, List.nil_append]
            rw [utf8Char]
            simp [contRange, cont1, hb1, hb1h, hc2]
        · rename_i hn2
          split at h
          · rename_i hc0
            obtain ⟨m, hm, hcc⟩ := Option.bind_eq_some.mp h
            obtain ⟨b1, rfl, hc1⟩ := cont1_inv hm
            obtain ⟨b2, rfl, hc2⟩ := cont1_inv hcc
            have h1 := isCont_range hc1
            have h2 := isCont_range hc2
            refine Or.inr ⟨[b, b1, b2], rfl, by simp, ?_, ?_⟩
            · intro x hx; simp at hx; rcases hx with rfl | rfl | rfl <;> omega
            · intro t
              simp only [List.cons_append, List.nil_append]
              rw [utf8Char]
              simp [hnb0, hn1, hn2, hc0, cont1, hc1, hc2]
          · rename_i hn3
            split at h
            · rename_i hc0
              obtain ⟨m, hm, hcc⟩ := Option.bind_eq_some.mp h
              obtain ⟨b1, rfl, hb1, hb1h⟩ := contRange_inv hm
              obtain ⟨b2, rfl, hc2⟩ := cont1_inv hcc
              have h2 := isCont_range hc2
              subst hc0
              refine Or.inr ⟨[237, b1, b2], rfl, by simp, ?_, ?_⟩
              · intro x hx; simp at hx; rcases hx with rfl | rfl | rfl <;> omega
              · intro t
                simp only [List.cons_append, List.nil_append]
                rw [utf8Char]
                simp [contRange, cont1, hb1, hb1h, hc2]
            · rename_i hn4
              split at h
              · rename_i hc0
                obtain ⟨m, hm1, hcc⟩ := Option.bind_eq_some.mp h
                obtain ⟨m2, hm2, hcc2⟩ := Option.bind_eq_some.mp hm1
                obtain ⟨b1, rfl, hb1, hb1h⟩ := contRange_inv hm2
                obtain ⟨b2, rfl, hc2⟩ := cont1_inv hcc2
                obtain ⟨b3, rfl, hc3⟩ := cont1_inv hcc
                have h2 := isCont_range hc2
                have h3 := isCont_range hc3
                subst hc0
                refine Or.inr ⟨[240, b1, b2, b3], rfl, by simp, ?_, ?_⟩
                · intro x hx; simp at hx; rcases hx with rfl | rfl | rfl | rfl <;> omega
                · intro t
                  simp only [List.cons_append, List.nil_append]
                  rw [utf8Char]
                  simp [contRange, cont1, hb1, hb1h, hc2, hc3]
              · rename_i hn5
                split at h
                · rename_i hc0
                  obtain ⟨m, hm1, hcc⟩ := Option.bind_eq_some.mp h
                  obtain ⟨m2, hm2, hcc2⟩ := Option.bind_eq_some.mp hm1
                  obtain ⟨b1, rfl, hc1⟩ := cont1_inv hm2
                  obtain ⟨b2, rfl, hc2⟩ := cont1_inv hcc2
                  obtain ⟨b3, rfl, hc3⟩ := cont1_inv hcc
                  have h1 := isCont_range hc1
                  have h2 := isCont_range hc2
                  have h3 := isCont_range hc3
                  refine Or.inr ⟨[b, b1, b2, b3], rfl, by simp, ?_, ?_⟩
                  · intro x hx; simp at hx; rcases hx with rfl | rfl | rfl | rfl <;> omega
                  · intro t
                    simp only [List.cons_append, List.nil_append]
                    rw [utf8Char]
                    simp [hnb0, hn1, hn2, hn3, hn4, hn5, hc0, cont1, hc1, hc2, hc3]
                · rename_i hn6
                  split at h
                  · rename_i hc0
                    obtain ⟨m, hm1, hcc⟩ := Option.bind_eq_some.mp h
                    obtain ⟨m2, hm2, hcc2⟩ := Option.bind_eq_some.mp hm1
                    obtain ⟨b1, rfl, hb1, hb1h⟩ := contRange_inv hm2
                    obtain ⟨b2, rfl, hc2⟩ := cont1_inv hcc2
                    obtain ⟨b3, rfl, hc3⟩ := cont1_inv hcc
                    have h2 := isCont_range hc2
                    have h3 := isCont_range hc3
                    subst hc0
                    refine Or.inr ⟨[244, b1, b2, b3], rfl, by simp, ?_, ?_⟩
                    · intro x hx; simp at hx; rcases hx with rfl | rfl | rfl | rfl <;> omega
                    · intro t
                      simp only [List.cons_append, List.nil_append]
                      rw [utf8Char]
                      simp [contRange, cont1, hb1, hb1h, hc2, hc3]
                  · cases h

theorem utf8ValidAux_congr : ∀ f1 f2 l, l.length ≤ f1 → l.length ≤ f2 →
    utf8ValidAux f1 l = utf8ValidAux f2 l := by
  intro f1
  induction f1 with
  | zero =>
    intro f2 l h1 _
    have : l = [] := List.length_eq_zero.mp (by omega)
    subst this
    cases f2 <;> rfl
  | succ f1 ih =>
    intro f2 l h1 h2
    cases l with
    | nil => cases f2 <;> rfl
    | cons b rest =>
      cases f2 with
      | zero => simp at h2
      | succ f2 =>
        rw [utf8ValidAux, utf8ValidAux]
        cases hc : utf8Char (b :: rest) with
        | some r =>
          have hlen := utf8Char_length hc
          simp only
          exact ih f2 r (by simp only [List.length_cons] at h1 hlen; omega)
            (by simp only [List.length_cons] at h2 hlen; omega)
        | none => simp only

theorem utf8ValidB_eq_some {l r : List Nat} (h : utf8Char l = some r) :
    utf8ValidB l = utf8ValidB r := by
  cases l with
  | nil => simp [utf8Char] at h
  | cons b rest =>
    unfold utf8ValidB
    rw [List.length_cons, utf8ValidAux, h]
    have hlen := utf8Char_length h
    exact utf8ValidAux_congr _ _ r (by simp at hlen ⊢; omega) le_rfl

theorem utf8ValidB_eq_none {l : List Nat} (h : utf8Char l = none) :
    utf8ValidB l = l.isEmpty := by
  cases l with
  | nil => rfl
  | cons b rest =>
    unfold utf8ValidB
    rw [List.length_cons, utf8ValidAux, h]
    rfl

/-- Induction on a byte sequence one UTF-8 character at a time. -/
theorem utf8Valid_ind (motive : List Nat → Prop)
    (h1 : ∀ l r, utf8Char l = some r → motive r → motive l)
    (h2 : ∀ l, utf8Char l = none → motive l) : ∀ l, motive l := by
  have key : ∀ n (l : List Nat), l.length ≤ n → motive l := by
    intro n
    induction n with
    | zero =>
      intro l hl
      cases hc : utf8Char l with
      | some r => exact absurd (utf8Char_length hc) (by omega)
      | none => exact h2 l hc
    | succ n ih =>
      intro l hl
      cases hc : utf8Char l with
      | some r => exact h1 l r hc (ih r (by have := utf8Char_length hc; omega))
      | none => exact h2 l hc
  exact fun l => key l.length l le_rfl

theorem utf8Valid_append {b : List Nat} (hb : utf8ValidB b = true) :
    ∀ a : List Nat, utf8ValidB a = true → utf8ValidB (a ++ b) = true := by
  intro a
  induction a using utf8Valid_ind with
  | h1 l r hchar ih =>
    intro ha
    rw [utf8ValidB_eq_some hchar] at ha
    rcases utf8Char_decomp hchar with ⟨b0, hb0, rfl⟩ | ⟨c, rfl, _, _, hre⟩
    · have hstep : utf8Char (b0 :: (r ++ b)) = some (r ++ b) := by
        rw [utf8Char, if_pos hb0]
      rw [List.cons_append, utf8ValidB_eq_some hstep]
      exact ih ha
    · rw [List.append_assoc, utf8ValidB_eq_some (hre (r ++ b))]
      exact ih ha
  | h2 l hchar =>
    intro ha
    rw [utf8ValidB_eq_none hchar] at ha
    rw [List.isEmpty_iff.mp ha]
    simpa

theorem utf8Valid_lt : ∀ l : List Nat, utf8ValidB l = true → ∀ x ∈ l, x < 256 := by
  intro l
  induction l using utf8Valid_ind with
  | h1 l r hchar ih =>
    intro ha x hx
    rw [utf8ValidB_eq_some hchar] at ha
    rcases utf8Char_decomp hchar with ⟨b0, hb0, rfl⟩ | ⟨c, rfl, _, hcb, _⟩
    · rcases List.mem_cons.mp hx with rfl | hx
      · omega
      · exact ih ha x hx
    · rcases List.mem_append.mp hx with hx | hx
      · have := hcb x hx; omega
      · exact ih ha x hx
  | h2 l hchar =>
    intro ha x hx
    rw [utf8ValidB_eq_none hchar, List.isEmpty_iff] at ha
    subst ha
    simp at hx

theorem asciiValid : ∀ l : List Nat, (∀ x ∈ l, x < 128) → utf8ValidB l = true := by
  intro l
  induction l with
  | nil => intro _; rfl
  | cons x xs ih =>
    intro h
    have hstep : utf8Char (x :: xs) = some xs := by
      rw [utf8Char, if_pos (h x (by simp))]
    rw [utf8ValidB_eq_some hstep]
    exact ih (fun y hy => h y (by simp [hy]))

/- ## JSON escaping preserves UTF-8 validity -/

theorem hexDigit_lt {n : Nat} (h : n ≤ 15) : hexDigit n < 128 := by
  unfold hexDigit; split <;> omega

theorem escapeByte_ascii {b : Nat} (hb : b < 128) : ∀ x ∈ escapeByte b, x < 128 := by
  have h16 : hexDigit (b / 16) < 128 := hexDigit_lt (by omega)
  have h16b : hexDigit (b % 16) < 128 := hexDigit_lt (by omega)
  intro x hx
  unfold escapeByte at hx
  repeat' split at hx
  all_goals simp only [List.mem_cons, List.not_mem_nil, or_false] at hx
  all_goals first
    | (rcases hx with rfl | rfl | rfl | rfl | rfl | rfl <;> omega)
    | (rcases hx with rfl | rfl <;> omega)
    | (rcases hx with rfl; omega)

theorem escapeByte_raw {b : Nat} (h32 : 32 ≤ b) (h34 : b ≠ 34) (h92 : b ≠ 92) :
    escapeByte b = [b] := by
  unfold escapeByte
  rw [if_neg h34, if_neg h92, if_neg (by omega), if_neg (by omega), if_neg (by omega),
    if_neg (by omega), if_neg (by omega), if_neg (by omega)]

theorem escapeString_append (a b : List Nat) :
    escapeString (a ++ b) = escapeString a ++ escapeString b := by
  simp [escapeString]

theorem escapeString_raw {c : List Nat} (h : ∀ x ∈ c, 128 ≤ x ∧ x < 245) :
    escapeString c = c := by
  induction c with
  | nil => rfl
  | cons x xs ih =>
    have hx := h x (by simp)
    simp only [escapeString, List.map_cons, List.flatten_cons]
    rw [escapeByte_raw (by omega) (by omega) (by omega)]
    simp only [List.singleton_append, List.cons.injEq, true_and]
    exact ih (fun y hy => h y (by simp [hy]))

theorem escape_ascii_valid {l : List Nat} (h : ∀ x ∈ l, x < 128) :
    utf8ValidB (escapeString l) = true := by
  apply asciiValid
  intro x hx
  simp only [escapeString] at hx
  obtain ⟨piece, hp, hxp⟩ := List.mem_flatten.mp hx
  obtain ⟨b, hb, rfl⟩ := List.mem_map.mp hp
  exact escapeByte_ascii (h b hb) x hxp

theorem escape_valid : ∀ s : List Nat, utf8ValidB s = true →
    utf8ValidB (escapeString s) = true := by
  intro s
  induction s using utf8Valid_ind with
  | h1 l r hchar ih =>
    intro ha
    rw [utf8ValidB_eq_some hchar] at ha
    rcases utf8Char_decomp hchar with ⟨b0, hb0, rfl⟩ | ⟨c, rfl, _, hcb, hre⟩
    · have : escapeString (b0 :: r) = escapeString [b0] ++ escapeString r := by
        simpa using escapeString_append [b0] r
      rw [this]
      exact utf8Valid_append (ih ha) _ (escape_ascii_valid (by simpa using hb0))
    · rw [escapeString_append, escapeString_raw hcb,
        utf8ValidB_eq_some (hre (escapeString r))]
      exact ih ha
  | h2 l hchar =>
    intro ha
    rw [utf8ValidB_eq_none hchar, List.isEmpty_iff] at ha
    subst ha
    rfl

/- ## The envelope claims -/

theorem sha256_lt (msg : List Nat) : ∀ x ∈ sha256 msg, x < 256 := by
  intro x hx
  unfold sha256 at hx
  obtain ⟨piece, hp, hxp⟩ := List.mem_flatten.mp hx
  obtain ⟨wrd, _, rfl⟩ := List.mem_map.mp hp
  exact toBytesBE_lt 4 wrd x hxp

/-- C1: for every plaintext string P (well-formed UTF-8, within the GCM
length bound, as any Rust String handed to the cipher is) and every
password W, encrypt_note_content under derive_key_from_password W returns
the encoded pair, and decrypt_note_content of that pair under the same
derived key returns exactly P: base64 encoding, AES-GCM encryption, base64
decoding and AES-GCM decryption round-trip to the identity. -/
theorem C1_round_trip (content password nonce_bytes : List Nat)
    (hutf : utf8ValidB content = true)
    (hlen : content.length ≤ 2 ^ 36)
    (hnlen : nonce_bytes.length = 12)
    (hnb : ∀ b ∈ nonce_bytes, b < 256) :
    encrypt_note_content content (derive_key_from_password password) nonce_bytes =
      .ret (encryptedPair content (derive_key_from_password password) nonce_bytes) ∧
    decrypt_note_content
      (encryptedPair content (derive_key_from_password password) nonce_bytes).1
      (encryptedPair content (derive_key_from_password password) nonce_bytes).2
      (derive_key_from_password password) = .ret (some content) := by
  constructor
  · unfold encrypt_note_content
    rw [if_neg (by omega)]
  · have hkey : ∀ x ∈ derive_key_from_password password, x < 256 := sha256_lt password
    have hpt : ∀ x ∈ content, x < 256 := utf8Valid_lt content hutf
    have hct : ∀ x ∈ aes256GcmEncrypt (derive_key_from_password password) nonce_bytes content,
        x < 256 := aes256GcmEncrypt_lt hkey hpt nonce_bytes
    unfold decrypt_note_content encryptedPair
    rw [base64_roundtrip hct, base64_roundtrip hnb]
    simp only
    rw [if_pos hnlen, aes256Gcm_decrypt_encrypt _ _ _ hlen]
    simp only
    rw [if_pos hutf]

/-- C8: the ciphertext bytes that encrypt_note_content base64-encodes are
exactly 16 bytes (one AES-GCM authentication tag) longer than the
plaintext, for every key, nonce and plaintext. -/
theorem C8_ciphertext_length (content key nonce_bytes : List Nat) :
    (aes256GcmEncrypt key nonce_bytes content).length = content.length + 16 ∧
    (encryptedPair content key nonce_bytes).1 =
      base64Encode (aes256GcmEncrypt key nonce_bytes content) :=
  ⟨aes256GcmEncrypt_length key nonce_bytes content, rfl⟩

/-- C9 as stated is false: decrypt_note_content panics when both fields
decode but the nonce is not 12 bytes; the empty string is valid base64
decoding to zero bytes, and the GenericArray from_slice call aborts. -/
theorem C9_counterexample :
    decrypt_note_content [] [] (List.replicate 32 0) = .panic := by decide

/-- C9 amended: decrypt_note_content panics exactly when the ciphertext
decodes and the nonce decodes to a length other than 12; on every other
input, every key included, it returns an Option without panicking. -/
theorem C9_amended (ciphertext_b64 nonce_b64 key : List Nat) :
    decrypt_note_content ciphertext_b64 nonce_b64 key = .panic ↔
      (∃ ct, base64Decode ciphertext_b64 = some ct) ∧
      (∃ nb, base64Decode nonce_b64 = some nb ∧ nb.length ≠ 12) := by
  unfold decrypt_note_content
  cases hc : base64Decode ciphertext_b64 with
  | none => simp
  | some ct =>
    cases hn : base64Decode nonce_b64 with
    | none => simp
    | some nb =>
      dsimp only
      by_cases h12 : nb.length = 12
      · rw [if_pos h12]
        simp [h12]
      · rw [if_neg h12]
        simp [h12]

/-- C10: decrypt_note_content returns a plaintext exactly when both fields
base64-decode, the nonce is 12 bytes, authenticated decryption succeeds
and the decrypted bytes are valid UTF-8; and it returns the none outcome
exactly when a decode fails or, with a 12-byte nonce, authentication fails
or the authenticated plaintext is not valid UTF-8 - so a non-UTF-8
plaintext is indistinguishable from a wrong key at this interface. -/
theorem C10_some_characterisation (ciphertext_b64 nonce_b64 key : List Nat) :
    (∀ s, decrypt_note_content ciphertext_b64 nonce_b64 key = .ret (some s) ↔
      ∃ ct nb, base64Decode ciphertext_b64 = some ct ∧ base64Decode nonce_b64 = some nb ∧
        nb.length = 12 ∧ aes256GcmDecrypt key nb ct = some s ∧ utf8ValidB s = true) ∧
    (decrypt_note_content ciphertext_b64 nonce_b64 key = .ret none ↔
      base64Decode ciphertext_b64 = none ∨
      (∃ ct, base64Decode ciphertext_b64 = some ct ∧ base64Decode nonce_b64 = none) ∨
      (∃ ct nb, base64Decode ciphertext_b64 = some ct ∧ base64Decode nonce_b64 = some nb ∧
        nb.length = 12 ∧
        (aes256GcmDecrypt key nb ct = none ∨
         ∃ pt, aes256GcmDecrypt key nb ct = some pt ∧ utf8ValidB pt = false))) := by
  unfold decrypt_note_content
  cases hc : base64Decode ciphertext_b64 with
  | none => simp
  | some ct =>
    cases hn : base64Decode nonce_b64 with
    | none => simp
    | some nb =>
      dsimp only
      by_cases h12 : nb.length = 12
      · rw [if_pos h12]
        cases hd : aes256GcmDecrypt key nb ct with
        | none => simp [h12, hd]
        | some pt =>
          dsimp only
          by_cases hv : utf8ValidB pt = true
          · rw [if_pos hv]
            constructor
            · intro s
              constructor
              · intro h
                cases h
                exact ⟨ct, nb, rfl, rfl, h12, hd, hv⟩
              · rintro ⟨ct', nb', hceq, hneq, _, hdeq, _⟩
                cases hceq; cases hneq
                rw [hd] at hdeq
                cases hdeq
                rfl
            · constructor
              · intro h; cases h
              · rintro (h | ⟨_, _, h⟩ | ⟨ct', nb', hceq, hneq, _, (hdeq | ⟨pt', hdeq, hvf⟩)⟩)
                · cases h
                · cases h
                · cases hceq; cases hneq
                  rw [hd] at hdeq
                  cases hdeq
                · cases hceq; cases hneq
                  rw [hd] at hdeq
                  cases hdeq
                  rw [hv] at hvf
                  cases hvf
          · have hv' : utf8ValidB pt = false := by
              cases hb : utf8ValidB pt
              · rfl
              · exact absurd hb hv
            rw [if_neg (by simp [hv'])]
            constructor
            · intro s
              constructor
              · intro h; cases h
              · rintro ⟨ct', nb', hceq, hneq, _, hdeq, hvt⟩
                cases hceq; cases hneq
                rw [hd] at hdeq
                cases hdeq
                rw [hvt] at hv'
                cases hv'
            · constructor
              · intro _
                exact Or.inr (Or.inr ⟨ct, nb, rfl, rfl, h12, Or.inr ⟨pt, hd, hv'⟩⟩)
              · intro _; rfl
      · rw [if_neg h12]
        constructor
        · intro s
          constructor
          · intro h; cases h
          · rintro ⟨ct', nb', hceq, hneq, h12', _, _⟩
            cases hceq; cases hneq
            exact absurd h12' h12
        · constructor
          · intro h; cases h
          · rintro (h | ⟨_, _, h⟩ | ⟨ct', nb', hceq, hneq, h12', _⟩)
            · cases h
            · cases h
            · cases hceq; cases hneq
              exact absurd h12' h12

/-- C3 as stated is false: the universal None-guarantee under a mismatched
derived key fails. GHASH tag verification is GF(2^128)-linear, so tag
collisions between two fixed keys are constructible: for the concrete
passwords pw1 and pw2 (whose SHA-256 derivations differ), the nonce
c3nonce and the valid-UTF-8 plaintext c3content, the fields produced by
encrypt_note_content under the key of pw1 decrypt under the key of pw2 to
the different valid-UTF-8 plaintext c3recovered, not to None. -/
theorem C3_counterexample :
    derive_key_from_password c3pw1 ≠ derive_key_from_password c3pw2 ∧
    utf8ValidB c3content = true ∧
    encrypt_note_content c3content (derive_key_from_password c3pw1) c3nonce =
      .ret (c3ct64, c3n64) ∧
    decrypt_note_content c3ct64 c3n64 (derive_key_from_password c3pw2) =
      .ret (some c3recovered) ∧
    utf8ValidB c3recovered = true ∧
    c3recovered ≠ c3content :=
  ⟨by decide, by decide, by decide, by decide, by decide, by decide⟩

/-- C3 amended: under a mismatched derived key, decrypt_note_content of the
encrypt_note_content output returns None whenever the GCM tag of the
transported ciphertext body under the second key differs from the stored
tag computed under the first; the counterexample shows the colliding case
is real, so this tag hypothesis cannot be dropped. -/
theorem C3_amended (content w1 w2 nonce_bytes : List Nat)
    (hp : ∀ b ∈ content, b < 256)
    (hlen : content.length ≤ 2 ^ 36)
    (hnlen : nonce_bytes.length = 12)
    (hnb : ∀ b ∈ nonce_bytes, b < 256)
    (htag : gcmTag (derive_key_from_password w2) nonce_bytes
        (xorBytes content (gcmKeystream (derive_key_from_password w1)
          (nonce_bytes ++ [0, 0, 0, 1]) content.length)) ≠
      gcmTag (derive_key_from_password w1) nonce_bytes
        (xorBytes content (gcmKeystream (derive_key_from_password w1)
          (nonce_bytes ++ [0, 0, 0, 1]) content.length))) :
    decrypt_note_content
      (encryptedPair content (derive_key_from_password w1) nonce_bytes).1
      (encryptedPair content (derive_key_from_password w1) nonce_bytes).2
      (derive_key_from_password w2) = .ret none := by
  have hkey : ∀ x ∈ derive_key_from_password w1, x < 256 := sha256_lt w1
  have hct : ∀ x ∈ aes256GcmEncrypt (derive_key_from_password w1) nonce_bytes content,
      x < 256 := aes256GcmEncrypt_lt hkey hp nonce_bytes
  have hnone : aes256GcmDecrypt (derive_key_from_password w2) nonce_bytes
      (aes256GcmEncrypt (derive_key_from_password w1) nonce_bytes content) = none := by
    unfold aes256GcmEncrypt aes256GcmDecrypt
    set C := xorBytes content (gcmKeystream (derive_key_from_password w1)
      (nonce_bytes ++ [0, 0, 0, 1]) content.length) with hC
    have hClen : C.length = content.length := by rw [hC, xorBytes_length]
    have hTlen : (gcmTag (derive_key_from_password w1) nonce_bytes C).length = 16 :=
      gcmTag_length _ _ _
    have hlen' : (C ++ gcmTag (derive_key_from_password w1) nonce_bytes C).length
        = content.length + 16 := by rw [List.length_append, hClen, hTlen]
    rw [hlen']
    rw [if_neg (by omega), if_neg (by omega)]
    have htake : (C ++ gcmTag (derive_key_from_password w1) nonce_bytes C).take
        (content.length + 16 - 16) = C := by
      have : content.length + 16 - 16 = C.length := by omega
      rw [this, List.take_left]
    have hdrop : (C ++ gcmTag (derive_key_from_password w1) nonce_bytes C).drop
        (content.length + 16 - 16) = gcmTag (derive_key_from_password w1) nonce_bytes C := by
      have : content.length + 16 - 16 = C.length := by omega
      rw [this, List.drop_left]
    rw [htake, hdrop, if_neg htag]
  unfold decrypt_note_content encryptedPair
  rw [base64_roundtrip hct, base64_roundtrip hnb]
  simp only
  rw [if_pos hnlen, hnone]

/-- A concrete instance of the amended C3 theorem: a two-byte plaintext,
the pw1 and pw2 derived keys and the zero nonce, where the two tags indeed
differ and the mismatched-key decryption returns None. -/
theorem C3_amended_witness :
    (gcmTag (derive_key_from_password c3pw2) (List.replicate 12 0)
        (xorBytes [104, 105] (gcmKeystream (derive_key_from_password c3pw1)
          (List.replicate 12 0 ++ [0, 0, 0, 1]) (List.length [104, 105]))) ≠
      gcmTag (derive_key_from_password c3pw1) (List.replicate 12 0)
        (xorBytes [104, 105] (gcmKeystream (derive_key_from_password c3pw1)
          (List.replicate 12 0 ++ [0, 0, 0, 1]) (List.length [104, 105])))) ∧
    decrypt_note_content
      (encryptedPair [104, 105] (derive_key_from_password c3pw1) (List.replicate 12 0)).1
      (encryptedPair [104, 105] (derive_key_from_password c3pw1) (List.replicate 12 0)).2
      (derive_key_from_password c3pw2) = .ret none :=
  ⟨by decide, C3_amended [104, 105] c3pw1 c3pw2 (List.replicate 12 0)
    (by decide) (by decide) (by decide) (by decide) (by decide)⟩

/- ## The branch claims -/

/-- The retain pass, under the hypothesis that no matching note panics the
decryptor, keeps exactly the notes that do not both match the title and
decrypt, and reports one message per matching note, in storage order. -/
theorem deleteRetain_eq (title key : List Nat) :
    ∀ notes : List Note,
    (∀ n ∈ notes, n.title = title → decrypt_note_content n.content n.nonce key ≠ .panic) →
    deleteRetain title key notes =
      .ret (notes.filter (deleteKeeps title key), notes.filterMap (deleteMsg title key)) := by
  intro notes
  induction notes with
  | nil => intro _; rfl
  | cons n rest ih =>
    intro hnp
    have hrest := ih (fun m hm => hnp m (by simp [hm]))
    rw [deleteRetain]
    by_cases ht : n.title = title
    · rw [if_pos ht]
      rcases hdec : decrypt_note_content n.content n.nonce key with _ | v
      · exact absurd hdec (hnp n (by simp) ht)
      · have hbeq : (n.title == title) = true := beq_iff_eq.mpr ht
        cases v with
        | some pt =>
          have hok : decOk key n = true := by simp [decOk, hdec]
          rw [hrest]
          simp [List.filter_cons, List.filterMap_cons, deleteKeeps, deleteMsg, hbeq, hok, ht]
        | none =>
          have hok : decOk key n = false := by simp [decOk, hdec]
          rw [hrest]
          simp [List.filter_cons, List.filterMap_cons, deleteKeeps, deleteMsg, hbeq, hok, ht]
    · rw [if_neg ht]
      have hbeq : (n.title == title) = false := by simp [ht]
      rw [hrest]
      simp [List.filter_cons, List.filterMap_cons, deleteKeeps, deleteMsg, hbeq, ht]

/-- C2: over any loaded collection whose matching notes do not panic the
decryptor, Delete removes exactly the notes whose title matches and whose
content decrypts under the working key - all of them, duplicates included -
keeps every other note (reporting a failure for each matching note that
does not decrypt), in storage order. -/
theorem C2_delete_semantics (notes : List Note) (title key : List Nat)
    (hnp : ∀ n ∈ notes, n.title = title →
      decrypt_note_content n.content n.nonce key ≠ .panic) :
    deleteRetain title key notes =
      .ret (notes.filter (deleteKeeps title key), notes.filterMap (deleteMsg title key)) ∧
    (∀ n ∈ notes, n.title = title → decOk key n = true →
      n ∉ notes.filter (deleteKeeps title key)) ∧
    (∀ n ∈ notes, n.title = title → decOk key n = false →
      n ∈ notes.filter (deleteKeeps title key) ∧
      VaultMsg.cannotDelete n.title ∈ notes.filterMap (deleteMsg title key)) ∧
    (∀ n ∈ notes, n.title ≠ title → n ∈ notes.filter (deleteKeeps title key)) := by
  refine ⟨deleteRetain_eq title key notes hnp, ?_, ?_, ?_⟩
  · intro n hn ht hok hmem
    have := (List.mem_filter.mp hmem).2
    simp [deleteKeeps, ht, hok] at this
  · intro n hn ht hok
    constructor
    · exact List.mem_filter.mpr ⟨hn, by simp [deleteKeeps, ht, hok]⟩
    · refine List.mem_filterMap.mpr ⟨n, hn, ?_⟩
      simp [deleteMsg, ht, hok]
  · intro n hn ht
    exact List.mem_filter.mpr ⟨hn, by simp [deleteKeeps, ht]⟩

/-- C2 witness: a single note whose title matches but whose ciphertext is
not valid base64, so decryption returns none and the note is retained with
a reported failure. -/
theorem C2_delete_semantics_witness :
    (∀ n ∈ [Note.mk [97] [33] [33]], n.title = [97] →
      decrypt_note_content n.content n.nonce (List.replicate 32 0) ≠ .panic) ∧
    deleteRetain [97] (List.replicate 32 0) [Note.mk [97] [33] [33]] =
      .ret ([Note.mk [97] [33] [33]].filter (deleteKeeps [97] (List.replicate 32 0)),
            [Note.mk [97] [33] [33]].filterMap (deleteMsg [97] (List.replicate 32 0))) :=
  ⟨by decide,
   (C2_delete_semantics [Note.mk [97] [33] [33]] [97] (List.replicate 32 0) (by decide)).1⟩

/-- C4: Read reports not-found when no title matches; otherwise the first
matching note alone determines the outcome - plaintext on success, a
decryption-failure message on failure - whatever notes follow it. -/
theorem C4_read_semantics :
    (∀ (notes : List Note) (title key : List Nat),
      (∀ n ∈ notes, n.title ≠ title) → runRead notes title key = .ret .notFound) ∧
    (∀ (pre post : List Note) (n : Note) (title key : List Nat) (r : Option (List Nat)),
      (∀ m ∈ pre, m.title ≠ title) → n.title = title →
      decrypt_note_content n.content n.nonce key = .ret r →
      runRead (pre ++ n :: post) title key =
        .ret (match r with
              | some pt => VaultMsg.contentIs pt
              | none => VaultMsg.decryptFailed)) := by
  constructor
  · intro notes title key hall
    unfold runRead
    rw [List.find?_eq_none.mpr (fun m hm => by simpa using hall m hm)]
  · intro pre post n title key r hpre ht hdec
    unfold runRead
    rw [List.find?_append, List.find?_eq_none.mpr (fun m hm => by simpa using hpre m hm)]
    simp only [Option.none_or]
    rw [List.find?_cons_of_pos _ (by simpa using ht)]
    dsimp only
    rw [hdec]
    cases r <;> rfl

/-- C4 witness: the first matching note fails to decrypt (failure is
reported), and a later note with the same title - one that would even
panic the decryptor if it were examined - is never examined. -/
theorem C4_read_semantics_witness :
    ((∀ m ∈ ([] : List Note), m.title ≠ [97]) ∧
      (Note.mk [97] [33] [33]).title = [97] ∧
      decrypt_note_content [33] [33] (List.replicate 32 0) = .ret none) ∧
    runRead ([] ++ Note.mk [97] [33] [33] :: [Note.mk [97] [] []]) [97]
      (List.replicate 32 0) = .ret VaultMsg.decryptFailed :=
  ⟨⟨by decide, by decide, by decide⟩,
   C4_read_semantics.2 [] [Note.mk [97] [] []] (Note.mk [97] [33] [33]) [97]
     (List.replicate 32 0) none (by decide) (by decide) (by decide)⟩

/-- C5: under the no-panic hypothesis, Delete saves the shrunk collection
exactly when some note was removed (some note matched and decrypted); when
nothing was removed the vault file is returned untouched and the overall
mismatch message is appended. -/
theorem C5_save_iff_removed (notes : List Note) (title key : List Nat)
    (file : Option (List Nat))
    (hnp : ∀ n ∈ notes, n.title = title →
      decrypt_note_content n.content n.nonce key ≠ .panic) :
    runDelete notes title key file =
      .ret (notes.filter (deleteKeeps title key),
        (if notes.any (fun n => n.title == title && decOk key n) then
          some (save_notes (notes.filter (deleteKeeps title key)))
        else file),
        (if notes.any (fun n => n.title == title && decOk key n) then
          notes.filterMap (deleteMsg title key)
        else notes.filterMap (deleteMsg title key) ++ [VaultMsg.notFoundOrMismatch])) := by
  unfold runDelete
  rw [deleteRetain_eq title key notes hnp]
  dsimp only
  have hiff : (notes.filter (deleteKeeps title key)).length < notes.length ↔
      notes.any (fun n => n.title == title && decOk key n) = true := by
    rw [List.length_filter_lt_length_iff_exists, List.any_eq_true]
    constructor
    · rintro ⟨n, hn, hk⟩
      exact ⟨n, hn, by simpa [deleteKeeps] using hk⟩
    · rintro ⟨n, hn, hk⟩
      exact ⟨n, hn, by simpa [deleteKeeps] using hk⟩
  by_cases hany : notes.any (fun n => n.title == title && decOk key n) = true
  · rw [if_pos (hiff.mpr hany), hany]
    simp
  · have hf : notes.any (fun n => n.title == title && decOk key n) = false := by
      cases h : notes.any (fun n => n.title == title && decOk key n)
      · rfl
      · exact absurd h hany
    rw [if_neg (fun hlt => hany (hiff.mp hlt)), hf]
    simp

/-- C5 witness: one matching note that fails to decrypt - nothing is
removed, save is not invoked and the file stays exactly as it was. -/
theorem C5_save_iff_removed_witness :
    (∀ n ∈ [Note.mk [97] [33] [33]], n.title = [97] →
      decrypt_note_content n.content n.nonce (List.replicate 32 0) ≠ .panic) ∧
    runDelete [Note.mk [97] [33] [33]] [97] (List.replicate 32 0) none =
      .ret ([Note.mk [97] [33] [33]].filter (deleteKeeps [97] (List.replicate 32 0)),
        (if [Note.mk [97] [33] [33]].any
            (fun n => n.title == [97] && decOk (List.replicate 32 0) n) then
          some (save_notes ([Note.mk [97] [33] [33]].filter
            (deleteKeeps [97] (List.replicate 32 0))))
        else none),
        (if [Note.mk [97] [33] [33]].any
            (fun n => n.title == [97] && decOk (List.replicate 32 0) n) then
          [Note.mk [97] [33] [33]].filterMap (deleteMsg [97] (List.replicate 32 0))
        else [Note.mk [97] [33] [33]].filterMap (deleteMsg [97] (List.replicate 32 0)) ++
          [VaultMsg.notFoundOrMismatch])) :=
  ⟨by decide, C5_save_iff_removed [Note.mk [97] [33] [33]] [97] (List.replicate 32 0) none
    (by decide)⟩

/-- C1 witness: the round trip at a concrete plaintext, password and nonce. -/
theorem C1_round_trip_witness :
    (utf8ValidB [104, 105] = true ∧ ([104, 105] : List Nat).length ≤ 2 ^ 36 ∧
      (List.replicate 12 (0 : Nat)).length = 12 ∧ ∀ b ∈ List.replicate 12 (0 : Nat), b < 256) ∧
    decrypt_note_content
      (encryptedPair [104, 105] (derive_key_from_password [112, 119]) (List.replicate 12 0)).1
      (encryptedPair [104, 105] (derive_key_from_password [112, 119]) (List.replicate 12 0)).2
      (derive_key_from_password [112, 119]) = .ret (some [104, 105]) :=
  ⟨⟨by decide, by decide, by decide, by decide⟩,
   (C1_round_trip [104, 105] [112, 119] (List.replicate 12 0)
     (by decide) (by decide) (by decide) (by decide)).2⟩

/- ## Implementation sanity checks against published test vectors -/

/-- SHA-256 of the three bytes abc, the FIPS 180-4 example value. -/
theorem sha256_abc_vector : sha256 [97, 98, 99] =
    [186, 120, 22, 191, 143, 1, 207, 234, 65, 65, 64, 222, 93, 174, 34, 35,
     176, 3, 97, 163, 150, 23, 122, 156, 180, 16, 255, 97, 242, 0, 21, 173] := by decide

/-- AES-256 of the zero block under the zero key, the GCM reference H value. -/
theorem aes256_zero_vector : aes256Block (List.replicate 32 0) (List.replicate 16 0) =
    [220, 149, 192, 120, 162, 64, 137, 137, 173, 72, 162, 20, 146, 132, 32, 135] := by decide

/-- AES-256-GCM of one zero block under the zero key and zero nonce: the
McGrew-Viega test case 14 ciphertext and tag. -/
theorem gcm_zero_vector :
    aes256GcmEncrypt (List.replicate 32 0) (List.replicate 12 0) (List.replicate 16 0) =
    [206, 167, 64, 61, 77, 96, 107, 110, 7, 78, 197, 211, 186, 243, 157, 24,
     208, 209, 200, 167, 153, 153, 107, 240, 38, 91, 152, 181, 212, 138, 185, 25] := by decide

/- ## JSON parsing inverts serialization -/

theorem hexVal_hexDigit {x : Nat} (h : x ≤ 15) : hexVal (hexDigit x) = some x := by
  by_cases hx : x < 10
  · have heq : hexDigit x = 48 + x := by simp [hexDigit, hx]
    rw [heq]
    unfold hexVal
    rw [if_pos (by omega)]
    simp
  · have heq : hexDigit x = 97 + (x - 10) := by simp [hexDigit, hx]
    rw [heq]
    unfold hexVal
    rw [if_neg (by omega), if_pos (by omega)]
    simp only [Option.some.injEq]
    omega

theorem psbAux_cons (fuel : Nat) (b : Nat) (rest : List Nat) :
    parseStringBodyAux (fuel + 1) (b :: rest) =
    (if b = 34 then some ([], rest)
    else if b = 92 then
      match rest with
      | [] => none
      | e :: rest2 =>
        if e = 34 ∨ e = 92 ∨ e = 47 then (parseStringBodyAux fuel rest2).map (fun p => (e :: p.1, p.2))
        else if e = 98 then (parseStringBodyAux fuel rest2).map (fun p => (8 :: p.1, p.2))
        else if e = 116 then (parseStringBodyAux fuel rest2).map (fun p => (9 :: p.1, p.2))
        else if e = 110 then (parseStringBodyAux fuel rest2).map (fun p => (10 :: p.1, p.2))
        else if e = 102 then (parseStringBodyAux fuel rest2).map (fun p => (12 :: p.1, p.2))
        else if e = 114 then (parseStringBodyAux fuel rest2).map (fun p => (13 :: p.1, p.2))
        else if e = 117 then
          match rest2 with
          | h1 :: h2 :: h3 :: h4 :: rest3 =>
            match hexVal h1, hexVal h2, hexVal h3, hexVal h4 with
            | some v1, some v2, some v3, some v4 =>
              let cp := v1 * 4096 + v2 * 256 + v3 * 16 + v4
              if 55296 ≤ cp ∧ cp ≤ 56319 then
                match rest3 with
                | 92 :: 117 :: g1 :: g2 :: g3 :: g4 :: rest4 =>
                  match hexVal g1, hexVal g2, hexVal g3, hexVal g4 with
                  | some u1, some u2, some u3, some u4 =>
                    let lo := u1 * 4096 + u2 * 256 + u3 * 16 + u4
                    if 56320 ≤ lo ∧ lo ≤ 57343 then
                      (parseStringBodyAux fuel rest4).map (fun p =>
                        (encodeUtf8 (65536 + (cp - 55296) * 1024 + (lo - 56320)) ++ p.1, p.2))
                    else none
                  | _, _, _, _ => none
                | _ => none
              else if 56320 ≤ cp ∧ cp ≤ 57343 then none
              else (parseStringBodyAux fuel rest3).map (fun p => (encodeUtf8 cp ++ p.1, p.2))
            | _, _, _, _ => none
          | _ => none
        else none
    else if b < 32 then none
    else (parseStringBodyAux fuel rest).map (fun p => (b :: p.1, p.2))) := rfl

theorem parseStringBodyAux_escape : ∀ (s rest : List Nat) (fuel : Nat),
    (escapeString s ++ 34 :: rest).length ≤ fuel →
    parseStringBodyAux fuel (escapeString s ++ 34 :: rest) = some (s, rest) := by
  intro s
  induction s with
  | nil =>
    intro rest fuel hf
    simp only [escapeString, List.map_nil, List.flatten_nil, List.nil_append] at hf ⊢
    cases fuel with
    | zero => simp only [List.length_cons] at hf; omega
    | succ f =>
      rw [psbAux_cons, if_pos rfl]
  | cons b tail ih =>
    intro rest fuel hf
    have hsplit : escapeString (b :: tail) = escapeByte b ++ escapeString tail := by
      simp [escapeString]
    rw [hsplit] at hf ⊢
    by_cases hb : b = 34
    · subst hb
      have heq : escapeByte 34 = [92, 34] := by decide
      rw [heq] at hf ⊢
      have hshape : ([92, 34] ++ escapeString tail) ++ 34 :: rest =
          92 :: 34 :: (escapeString tail ++ 34 :: rest) := by
        simp only [List.cons_append, List.nil_append]
      rw [hshape] at hf ⊢
      cases fuel with
      | zero => simp only [List.length_cons] at hf; omega
      | succ f =>
        have hfuel : (escapeString tail ++ 34 :: rest).length ≤ f := by
          simp only [List.length_cons] at hf; omega
        rw [psbAux_cons]
        rw [if_neg (by omega), if_pos rfl]
        dsimp only
        rw [if_pos (by omega : (34 : Nat) = 34 ∨ (34 : Nat) = 92 ∨ (34 : Nat) = 47)]
        rw [ih rest f hfuel]
        rfl
    · by_cases hb : b = 92
      · subst hb
        have heq : escapeByte 92 = [92, 92] := by decide
        rw [heq] at hf ⊢
        have hshape : ([92, 92] ++ escapeString tail) ++ 34 :: rest =
            92 :: 92 :: (escapeString tail ++ 34 :: rest) := by
          simp only [List.cons_append, List.nil_append]
        rw [hshape] at hf ⊢
        cases fuel with
        | zero => simp only [List.length_cons] at hf; omega
        | succ f =>
          have hfuel : (escapeString tail ++ 34 :: rest).length ≤ f := by
            simp only [List.length_cons] at hf; omega
          rw [psbAux_cons]
          rw [if_neg (by omega), if_pos rfl]
          dsimp only
          rw [if_pos (by omega : (92 : Nat) = 34 ∨ (92 : Nat) = 92 ∨ (92 : Nat) = 47)]
          rw [ih rest f hfuel]
          rfl
      · by_cases hb : b = 8
        · subst hb
          have heq : escapeByte 8 = [92, 98] := by decide
          rw [heq] at hf ⊢
          have hshape : ([92, 98] ++ escapeString tail) ++ 34 :: rest =
              92 :: 98 :: (escapeString tail ++ 34 :: rest) := by
            simp only [List.cons_append, List.nil_append]
          rw [hshape] at hf ⊢
          cases fuel with
          | zero => simp only [List.length_cons] at hf; omega
          | succ f =>
            have hfuel : (escapeString tail ++ 34 :: rest).length ≤ f := by
              simp only [List.length_cons] at hf; omega
            rw [psbAux_cons]
            rw [if_neg (by omega), if_pos rfl]
            dsimp only
            rw [if_neg (by omega : ¬((98 : Nat) = 34 ∨ (98 : Nat) = 92 ∨ (98 : Nat) = 47)), if_pos rfl]
            rw [ih rest f hfuel]
            rfl
        · by_cases hb : b = 9
          · subst hb
            have heq : escapeByte 9 = [92, 116] := by decide
            rw [heq] at hf ⊢
            have hshape : ([92, 116] ++ escapeString tail) ++ 34 :: rest =
                92 :: 116 :: (escapeString tail ++ 34 :: rest) := by
              simp only [List.cons_append, List.nil_append]
            rw [hshape] at hf ⊢
            cases fuel with
            | zero => simp only [List.length_cons] at hf; omega
            | succ f =>
              have hfuel : (escapeString tail ++ 34 :: rest).length ≤ f := by
                simp only [List.length_cons] at hf; omega
              rw [psbAux_cons]
              rw [if_neg (by omega), if_pos rfl]
              dsimp only
              rw [if_neg (by omega : ¬((116 : Nat) = 34 ∨ (116 : Nat) = 92 ∨ (116 : Nat) = 47)), if_neg (by omega), if_pos rfl]
              rw [ih rest f hfuel]
              rfl
          · by_cases hb : b = 10
            · subst hb
              have heq : escapeByte 10 = [92, 110] := by decide
              rw [heq] at hf ⊢
              have hshape : ([92, 110] ++ escapeString tail) ++ 34 :: rest =
                  92 :: 110 :: (escapeString tail ++ 34 :: rest) := by
                simp only [List.cons_append, List.nil_append]
              rw [hshape] at hf ⊢
              cases fuel with
              | zero => simp only [List.length_cons] at hf; omega
              | succ f =>
                have hfuel : (escapeString tail ++ 34 :: rest).length ≤ f := by
                  simp only [List.length_cons] at hf; omega
                rw [psbAux_cons]
                rw [if_neg (by omega), if_pos rfl]
                dsimp only
                rw [if_neg (by omega : ¬((110 : Nat) = 34 ∨ (110 : Nat) = 92 ∨ (110 : Nat) = 47)), if_neg (by omega), if_neg (by omega), if_pos rfl]
                rw [ih rest f hfuel]
                rfl
            · by_cases hb : b = 12
              · subst hb
                have heq : escapeByte 12 = [92, 102] := by decide
                rw [heq] at hf ⊢
                have hshape : ([92, 102] ++ escapeString tail) ++ 34 :: rest =
                    92 :: 102 :: (escapeString tail ++ 34 :: rest) := by
                  simp only [List.cons_append, List.nil_append]
                rw [hshape] at hf ⊢
                cases fuel with
                | zero => simp only [List.length_cons] at hf; omega
                | succ f =>
                  have hfuel : (escapeString tail ++ 34 :: rest).length ≤ f := by
                    simp only [List.length_cons] at hf; omega
                  rw [psbAux_cons]
                  rw [if_neg (by omega), if_pos rfl]
                  dsimp only
                  rw [if_neg (by omega : ¬((102 : Nat) = 34 ∨ (102 : Nat) = 92 ∨ (102 : Nat) = 47)), if_neg (by omega), if_neg (by omega), if_neg (by omega), if_pos rfl]
                  rw [ih rest f hfuel]
                  rfl
              · by_cases hb : b = 13
                · subst hb
                  have heq : escapeByte 13 = [92, 114] := by decide
                  rw [heq] at hf ⊢
                  have hshape : ([92, 114] ++ escapeString tail) ++ 34 :: rest =
                      92 :: 114 :: (escapeString tail ++ 34 :: rest) := by
                    simp only [List.cons_append, List.nil_append]
                  rw [hshape] at hf ⊢
                  cases fuel with
                  | zero => simp only [List.length_cons] at hf; omega
                  | succ f =>
                    have hfuel : (escapeString tail ++ 34 :: rest).length ≤ f := by
                      simp only [List.length_cons] at hf; omega
                    rw [psbAux_cons]
                    rw [if_neg (by omega), if_pos rfl]
                    dsimp only
                    rw [if_neg (by omega : ¬((114 : Nat) = 34 ∨ (114 : Nat) = 92 ∨ (114 : Nat) = 47)), if_neg (by omega), if_neg (by omega), if_neg (by omega), if_neg (by omega), if_pos rfl]
                    rw [ih rest f hfuel]
                    rfl
                · rename_i h34 h92 h8 h9 h10 h12
                  by_cases h32 : b < 32
                  · have heq : escapeByte b = [92, 117, 48, 48, hexDigit (b / 16), hexDigit (b % 16)] := by
                      unfold escapeByte
                      rw [if_neg h34, if_neg h92, if_neg h8, if_neg h9, if_neg h10, if_neg h12,
                        if_neg hb, if_pos h32]
                    rw [heq] at hf ⊢
                    have hshape : ([92, 117, 48, 48, hexDigit (b / 16), hexDigit (b % 16)] ++
                        escapeString tail) ++ 34 :: rest =
                        92 :: 117 :: 48 :: 48 :: hexDigit (b / 16) :: hexDigit (b % 16) ::
                          (escapeString tail ++ 34 :: rest) := by
                      simp only [List.cons_append, List.nil_append]
                    rw [hshape] at hf ⊢
                    cases fuel with
                    | zero => simp only [List.length_cons] at hf; omega
                    | succ f =>
                      have hfuel : (escapeString tail ++ 34 :: rest).length ≤ f := by
                        simp only [List.length_cons] at hf; omega
                      rw [psbAux_cons]
                      rw [if_neg (by omega), if_pos rfl]
                      dsimp only
                      rw [if_neg (by omega : ¬((117 : Nat) = 34 ∨ (117 : Nat) = 92 ∨ (117 : Nat) = 47))]
                      rw [if_neg (by omega), if_neg (by omega), if_neg (by omega), if_neg (by omega),
                        if_neg (by omega), if_pos rfl]
                      rw [show hexVal 48 = some 0 from rfl]
                      rw [hexVal_hexDigit (by omega), hexVal_hexDigit (by omega)]
                      dsimp only
                      rw [if_neg (by omega), if_neg (by omega)]
                      rw [ih rest f hfuel]
                      have hcp : 0 * 4096 + 0 * 256 + b / 16 * 16 + b % 16 = b := by omega
                      rw [hcp]
                      have henc : encodeUtf8 b = [b] := by
                        unfold encodeUtf8
                        rw [if_pos (by omega)]
                      rw [henc]
                      rfl
                  · have heq : escapeByte b = [b] := escapeByte_raw (by omega) h34 h92
                    rw [heq] at hf ⊢
                    have hshape : ([b] ++ escapeString tail) ++ 34 :: rest =
                        b :: (escapeString tail ++ 34 :: rest) := by
                      simp only [List.cons_append, List.nil_append]
                    rw [hshape] at hf ⊢
                    cases fuel with
                    | zero => simp only [List.length_cons] at hf; omega
                    | succ f =>
                      have hfuel : (escapeString tail ++ 34 :: rest).length ≤ f := by
                        simp only [List.length_cons] at hf; omega
                      rw [psbAux_cons]
                      rw [if_neg h34, if_neg h92, if_neg (by omega)]
                      rw [ih rest f hfuel]
                      rfl

theorem parseStringBody_escape (s rest : List Nat) :
    parseStringBody (escapeString s ++ 34 :: rest) = some (s, rest) :=
  parseStringBodyAux_escape s rest _ le_rfl

theorem skipWs_ws_prefix {w : List Nat} (hw : ∀ b ∈ w, isJsonWs b = true) (l : List Nat) :
    skipWs (w ++ l) = skipWs l := by
  induction w with
  | nil => rfl
  | cons b rest ih =>
    rw [List.cons_append, skipWs, if_pos (hw b (by simp))]
    exact ih (fun x hx => hw x (by simp [hx]))

theorem skipWs_not {b : Nat} (hb : isJsonWs b = false) (l : List Nat) :
    skipWs (b :: l) = b :: l := by
  rw [skipWs, if_neg (by simp [hb])]

theorem newlineIndent_ws (n : Nat) : ∀ b ∈ newlineIndent n, isJsonWs b = true := by
  intro b hb
  rcases List.mem_cons.mp hb with rfl | hb
  · rfl
  · rw [List.eq_of_mem_replicate hb]
    rfl

theorem skipWs_newlineIndent (n : Nat) (l : List Nat) :
    skipWs (newlineIndent n ++ l) = skipWs l :=
  skipWs_ws_prefix (newlineIndent_ws n) l

theorem skipWs_length_le : ∀ l : List Nat, (skipWs l).length ≤ l.length := by
  intro l
  induction l with
  | nil => simp [skipWs]
  | cons b rest ih =>
    rw [skipWs]
    split
    · simp only [List.length_cons]; omega
    · simp

/-- Parsing the serialized colon-and-string-value of a field. -/
theorem parseStringValue_serialized (v tail : List Nat) :
    parseStringValue (58 :: 32 :: (quoteString v ++ tail)) = some (v, tail) := by
  unfold parseStringValue
  rw [skipWs_not (by rfl)]
  dsimp only
  have h32 : (32 :: (quoteString v ++ tail)) = [32] ++ (quoteString v ++ tail) := rfl
  rw [h32, skipWs_ws_prefix (by intro b hb; simp at hb; subst hb; rfl)]
  have hq : quoteString v ++ tail = 34 :: (escapeString v ++ 34 :: tail) := by
    simp [quoteString]
  rw [hq, skipWs_not (by rfl)]
  dsimp only
  rw [parseStringBody_escape]

/-- Parsing one serialized field line: consumes the indentation, the quoted
key, the separator and the quoted value. -/
theorem parseFields_field_step (key v tail : List Nat) :
    skipWs (serializeField key v ++ tail) =
      34 :: (escapeString key ++ 34 :: (58 :: 32 :: (quoteString v ++ tail))) := by
  unfold serializeField
  simp only [List.append_assoc]
  rw [skipWs_newlineIndent]
  have hq : quoteString key ++ ([58, 32] ++ (quoteString v ++ tail)) =
      34 :: (escapeString key ++ 34 :: (58 :: 32 :: (quoteString v ++ tail))) := by
    simp [quoteString]
  rw [hq, skipWs_not (by rfl)]

theorem parseFields_cons (fuel : Nat) (tSlot cSlot nSlot : Option (List Nat)) (r : List Nat) :
    parseFields (fuel + 1) tSlot cSlot nSlot (34 :: r) =
    (parseStringBody r).bind (fun k =>
      (if k.1 = titleKey then
        if tSlot.isSome then none
        else (parseStringValue k.2).map (fun v => (some v.1, cSlot, nSlot, v.2))
      else if k.1 = contentKey then
        if cSlot.isSome then none
        else (parseStringValue k.2).map (fun v => (tSlot, some v.1, nSlot, v.2))
      else if k.1 = nonceKey then
        if nSlot.isSome then none
        else (parseStringValue k.2).map (fun v => (tSlot, cSlot, some v.1, v.2))
      else
        match skipWs k.2 with
        | 58 :: r2 => (skipValue (r2.length + 1) (skipWs r2)).map
            (fun s2 => (tSlot, cSlot, nSlot, s2))
        | _ => none).bind (fun q =>
      match skipWs q.2.2.2 with
      | 44 :: r3 => parseFields fuel q.1 q.2.1 q.2.2.1 (skipWs r3)
      | 125 :: r3 =>
        match q.1, q.2.1, q.2.2.1 with
        | some t, some c, some n => some (⟨t, c, n⟩, r3)
        | _, _, _ => none
      | _ => none)) := rfl

/-- Parsing one serialized field and moving to the separator. -/
theorem parseFields_one_field (fuel : Nat) (tS cS nS : Option (List Nat))
    (key v tail : List Nat) :
    parseFields (fuel + 1) tS cS nS (skipWs (serializeField key v ++ tail)) =
    (parseStringBody (escapeString key ++ 34 :: (58 :: 32 :: (quoteString v ++ tail)))).bind
      (fun k =>
      (if k.1 = titleKey then
        if tS.isSome then none
        else (parseStringValue k.2).map (fun w => (some w.1, cS, nS, w.2))
      else if k.1 = contentKey then
        if cS.isSome then none
        else (parseStringValue k.2).map (fun w => (tS, some w.1, nS, w.2))
      else if k.1 = nonceKey then
        if nS.isSome then none
        else (parseStringValue k.2).map (fun w => (tS, cS, some w.1, w.2))
      else
        match skipWs k.2 with
        | 58 :: r2 => (skipValue (r2.length + 1) (skipWs r2)).map
            (fun s2 => (tS, cS, nS, s2))
        | _ => none).bind (fun q =>
      match skipWs q.2.2.2 with
      | 44 :: r3 => parseFields fuel q.1 q.2.1 q.2.2.1 (skipWs r3)
      | 125 :: r3 =>
        match q.1, q.2.1, q.2.2.1 with
        | some t, some c, some n => some (⟨t, c, n⟩, r3)
        | _, _, _ => none
      | _ => none)) := by
  rw [parseFields_field_step, parseFields_cons]

/-- Parsing a serialized note object. -/
theorem parseNote_serialized (n : Note) (tail : List Nat) :
    parseNote (serializeNote n ++ tail) = some (n, tail) := by
  obtain ⟨t, c, nn⟩ := n
  have hshape : serializeNote ⟨t, c, nn⟩ ++ tail =
      123 :: (serializeField titleKey t ++
        (44 :: (serializeField contentKey c ++
          (44 :: (serializeField nonceKey nn ++ (newlineIndent 2 ++ (125 :: tail))))))) := by
    simp [serializeNote]
  rw [hshape]
  unfold parseNote
  dsimp only
  generalize hL : (serializeField titleKey t ++
      (44 :: (serializeField contentKey c ++
        (44 :: (serializeField nonceKey nn ++ (newlineIndent 2 ++ (125 :: tail))))))).length = L
  have hlen : 2 ≤ L := by
    rw [← hL]
    simp only [List.length_append, List.length_cons]
    unfold serializeField newlineIndent
    simp only [List.length_append, List.length_cons, List.length_replicate]
    omega
  obtain ⟨f, rfl⟩ : ∃ f, L = f + 2 := ⟨L - 2, by omega⟩
  rw [parseFields_one_field, parseStringBody_escape]
  rw [Option.some_bind]
  dsimp only
  rw [if_pos rfl]
  rw [parseStringValue_serialized]
  simp only [Option.isSome_none, Bool.false_eq_true, if_false, Option.map_some', Option.some_bind]
  rw [skipWs_not (by rfl)]
  dsimp only
  rw [parseFields_one_field, parseStringBody_escape]
  rw [Option.some_bind]
  dsimp only
  rw [if_neg (by decide), if_pos rfl, parseStringValue_serialized]
  simp only [Option.isSome_none, Bool.false_eq_true, if_false, Option.map_some', Option.some_bind]
  rw [skipWs_not (by rfl)]
  dsimp only
  rw [parseFields_one_field, parseStringBody_escape]
  rw [Option.some_bind]
  dsimp only
  rw [if_neg (by decide), if_neg (by decide), if_pos rfl, parseStringValue_serialized]
  simp only [Option.isSome_none, Bool.false_eq_true, if_false, Option.map_some', Option.some_bind]
  rw [skipWs_newlineIndent, skipWs_not (by rfl)]
  done

theorem serializeNote_cons (n : Note) : ∃ r, serializeNote n = 123 :: r :=
  ⟨serializeField titleKey n.title ++ (44 :: (serializeField contentKey n.content ++
    (44 :: (serializeField nonceKey n.nonce ++ (newlineIndent 2 ++ [125]))))),
   by simp [serializeNote]⟩

theorem parseElems_succ (fuel : Nat) (s : List Nat) :
    parseElems (fuel + 1) s =
    (parseNote s).bind (fun p =>
      match skipWs p.2 with
      | 44 :: r => (parseElems fuel (skipWs r)).map (fun q => (p.1 :: q.1, q.2))
      | 93 :: r => some ([p.1], r)
      | _ => none) := rfl

/-- Parsing the serialized items of a nonempty collection, with any fuel at
least the number of items; the whitespace-stripped item list starts at the
first object and the fuel bound also holds against its length. -/
theorem parseElems_items : ∀ (notes : List Note), notes ≠ [] →
    (∀ fuel, notes.length ≤ fuel →
      parseElems fuel (skipWs (serializeItems notes ++ (10 :: [93]))) = some (notes, [])) ∧
    notes.length ≤ (skipWs (serializeItems notes ++ (10 :: [93]))).length := by
  intro notes
  induction notes with
  | nil => intro h; exact absurd rfl h
  | cons n rest ih =>
    intro _
    cases rest with
    | nil =>
      have hshape : serializeItems [n] ++ (10 :: [93]) =
          newlineIndent 2 ++ (serializeNote n ++ (10 :: [93])) := by
        simp [serializeItems]
      obtain ⟨r, hr⟩ := serializeNote_cons n
      have hstr : skipWs (serializeItems [n] ++ (10 :: [93])) =
          serializeNote n ++ (10 :: [93]) := by
        rw [hshape, skipWs_newlineIndent, hr, List.cons_append, skipWs_not (by rfl)]
      constructor
      · intro fuel hfuel
        obtain ⟨f, rfl⟩ : ∃ f, fuel = f + 1 :=
          ⟨fuel - 1, by simp at hfuel; omega⟩
        rw [hstr, parseElems_succ, parseNote_serialized, Option.some_bind]
        dsimp only
        rw [show skipWs (10 :: [93]) = 93 :: [] from rfl]
      · rw [hstr]
        simp
    | cons r1 r2 =>
      have ihr := ih (by simp)
      have hshape : serializeItems (n :: r1 :: r2) ++ (10 :: [93]) =
          newlineIndent 2 ++ (serializeNote n ++
            (44 :: (serializeItems (r1 :: r2) ++ (10 :: [93])))) := by
        simp only [serializeItems, List.append_assoc, List.cons_append, List.singleton_append,
          List.nil_append]
      obtain ⟨r, hr⟩ := serializeNote_cons n
      have hstr : skipWs (serializeItems (n :: r1 :: r2) ++ (10 :: [93])) =
          serializeNote n ++ (44 :: (serializeItems (r1 :: r2) ++ (10 :: [93]))) := by
        rw [hshape, skipWs_newlineIndent, hr, List.cons_append, skipWs_not (by rfl)]
      constructor
      · intro fuel hfuel
        obtain ⟨f, rfl⟩ : ∃ f, fuel = f + 1 :=
          ⟨fuel - 1, by simp at hfuel; omega⟩
        rw [hstr, parseElems_succ, parseNote_serialized, Option.some_bind]
        dsimp only
        rw [skipWs_not (by rfl)]
        dsimp only
        rw [ihr.1 f (by simp at hfuel ⊢; omega)]
        rfl
      · rw [hstr]
        have h1 := ihr.2
        have h2 := skipWs_length_le (serializeItems (r1 :: r2) ++ (10 :: [93]))
        simp only [List.length_append, List.length_cons] at h1 h2 ⊢
        omega

/-- from_str of the bytes save_notes writes recovers the collection. -/
theorem from_str_save (notes : List Note) :
    from_str_notes (save_notes notes) = some notes := by
  cases notes with
  | nil => rfl
  | cons n rest =>
    have hsave : save_notes (n :: rest) =
        91 :: (serializeItems (n :: rest) ++ (10 :: [93])) := by
      simp [save_notes]
    rw [hsave]
    unfold from_str_notes
    rw [skipWs_not (by rfl)]
    dsimp only
    have hne : (n :: rest : List Note) ≠ [] := by simp
    obtain ⟨hparse, hlen⟩ := parseElems_items (n :: rest) hne
    obtain ⟨r, hr⟩ := serializeNote_cons n
    have hstr93 : ∃ y, skipWs (serializeItems (n :: rest) ++ (10 :: [93])) = 123 :: y := by
      cases rest with
      | nil =>
        refine ⟨r ++ (10 :: [93]), ?_⟩
        have hshape : serializeItems [n] ++ (10 :: [93]) =
            newlineIndent 2 ++ (serializeNote n ++ (10 :: [93])) := by
          simp [serializeItems]
        rw [hshape, skipWs_newlineIndent, hr, List.cons_append, skipWs_not (by rfl)]
      | cons r1 r2 =>
        refine ⟨r ++ (44 :: (serializeItems (r1 :: r2) ++ (10 :: [93]))), ?_⟩
        have hshape : serializeItems (n :: r1 :: r2) ++ (10 :: [93]) =
            newlineIndent 2 ++ (serializeNote n ++
              (44 :: (serializeItems (r1 :: r2) ++ (10 :: [93])))) := by
          simp only [serializeItems, List.append_assoc, List.cons_append, List.singleton_append,
            List.nil_append]
        rw [hshape, skipWs_newlineIndent, hr, List.cons_append, skipWs_not (by rfl)]
    obtain ⟨y, hy⟩ := hstr93
    rw [hy] at hlen
    have hp := hparse ((123 :: y).length + 1) (by omega)
    rw [hy] at hp
    rw [hy]
    dsimp only
    rw [hp]
    rfl

/- ## The serialized collection is valid UTF-8 -/

theorem valid_quoteString {v : List Nat} (hv : utf8ValidB v = true) :
    utf8ValidB (quoteString v) = true := by
  have hstep : utf8Char (34 :: (escapeString v ++ [34])) = some (escapeString v ++ [34]) := by
    rw [utf8Char, if_pos (by omega)]
  have : quoteString v = 34 :: (escapeString v ++ [34]) := by simp [quoteString]
  rw [this, utf8ValidB_eq_some hstep]
  exact utf8Valid_append (by rfl) _ (escape_valid v hv)

theorem valid_newlineIndent (k : Nat) : utf8ValidB (newlineIndent k) = true := by
  apply asciiValid
  intro b hb
  rcases List.mem_cons.mp hb with rfl | hb
  · omega
  · rw [List.eq_of_mem_replicate hb]; omega

theorem valid_serializeField {key v : List Nat} (hkey : ∀ b ∈ key, b < 128)
    (hv : utf8ValidB v = true) : utf8ValidB (serializeField key v) = true := by
  unfold serializeField
  simp only [List.append_assoc]
  apply utf8Valid_append _ _ (valid_newlineIndent 4)
  apply utf8Valid_append _ _ (valid_quoteString (asciiValid key hkey))
  exact utf8Valid_append (valid_quoteString hv) _ (by rfl)

theorem valid_serializeNote {n : Note}
    (hwf : utf8ValidB n.title = true ∧ utf8ValidB n.content = true ∧
      utf8ValidB n.nonce = true) :
    utf8ValidB (serializeNote n) = true := by
  unfold serializeNote
  simp only [List.append_assoc]
  have h125 : utf8ValidB (newlineIndent 2 ++ [125]) = true :=
    utf8Valid_append (by rfl) _ (valid_newlineIndent 2)
  have hstep : ∀ l, utf8ValidB l = true → utf8ValidB (123 :: l) = true := by
    intro l hl
    have hc : utf8Char (123 :: l) = some l := by rw [utf8Char, if_pos (by omega)]
    rw [utf8ValidB_eq_some hc]
    exact hl
  have hcomma : ∀ l, utf8ValidB l = true → utf8ValidB (44 :: l) = true := by
    intro l hl
    have hc : utf8Char (44 :: l) = some l := by rw [utf8Char, if_pos (by omega)]
    rw [utf8ValidB_eq_some hc]
    exact hl
  have hsing : (44 : Nat) :: (serializeField contentKey n.content ++
      ((44 : Nat) :: (serializeField nonceKey n.nonce ++ (newlineIndent 2 ++ [125])))) =
      [44] ++ (serializeField contentKey n.content ++
      ([44] ++ (serializeField nonceKey n.nonce ++ (newlineIndent 2 ++ [125])))) := by simp
  rw [show ([123] : List Nat) ++ (serializeField titleKey n.title ++
      ([44] ++ (serializeField contentKey n.content ++
      ([44] ++ (serializeField nonceKey n.nonce ++ (newlineIndent 2 ++ [125])))))) =
      123 :: (serializeField titleKey n.title ++
      (44 :: (serializeField contentKey n.content ++
      (44 :: (serializeField nonceKey n.nonce ++ (newlineIndent 2 ++ [125])))))) from by simp]
  apply hstep
  apply utf8Valid_append _ _ (valid_serializeField (by decide) hwf.1)
  apply hcomma
  apply utf8Valid_append _ _ (valid_serializeField (by decide) hwf.2.1)
  apply hcomma
  apply utf8Valid_append _ _ (valid_serializeField (by decide) hwf.2.2)
  exact h125

theorem valid_save_notes {notes : List Note}
    (hwf : ∀ n ∈ notes, utf8ValidB n.title = true ∧ utf8ValidB n.content = true ∧
      utf8ValidB n.nonce = true) :
    utf8ValidB (save_notes notes) = true := by
  have hitems : ∀ l : List Note,
      (∀ n ∈ l, utf8ValidB n.title = true ∧ utf8ValidB n.content = true ∧
        utf8ValidB n.nonce = true) →
      utf8ValidB (serializeItems l ++ (10 :: [93])) = true := by
    intro l
    induction l with
    | nil => intro _; rfl
    | cons n rest ihl =>
      intro hl
      cases rest with
      | nil =>
        rw [show serializeItems [n] ++ (10 :: [93]) =
          newlineIndent 2 ++ (serializeNote n ++ (10 :: [93])) from by simp [serializeItems]]
        apply utf8Valid_append _ _ (valid_newlineIndent 2)
        exact utf8Valid_append (by rfl) _ (valid_serializeNote (hl n (by simp)))
      | cons r1 r2 =>
        rw [show serializeItems (n :: r1 :: r2) ++ (10 :: [93]) =
          newlineIndent 2 ++ (serializeNote n ++
            ([44] ++ (serializeItems (r1 :: r2) ++ (10 :: [93])))) from by
          simp only [serializeItems, List.append_assoc, List.cons_append,
            List.singleton_append, List.nil_append]]
        apply utf8Valid_append _ _ (valid_newlineIndent 2)
        apply utf8Valid_append _ _ (valid_serializeNote (hl n (by simp)))
        apply utf8Valid_append _ _ (by rfl : utf8ValidB [44] = true)
        exact ihl (fun m hm => hl m (by simp [hm]))
  unfold save_notes
  split
  · rfl
  · rename_i hne
    rw [show ([91] : List Nat) ++ serializeItems notes ++ (10 :: [93]) =
      91 :: (serializeItems notes ++ (10 :: [93])) from by simp]
    have hc : utf8Char (91 :: (serializeItems notes ++ (10 :: [93]))) =
        some (serializeItems notes ++ (10 :: [93])) := by
      rw [utf8Char, if_pos (by omega)]
    rw [utf8ValidB_eq_some hc]
    exact hitems notes hwf

/- ## The store claims -/

/-- C6: loading what save_notes wrote returns exactly the same collection,
titles, ciphertexts and nonces in the same order, for every collection of
well-formed notes (each field a UTF-8 string, as every Rust String is). -/
theorem C6_store_roundtrip (notes : List Note)
    (hwf : ∀ n ∈ notes, utf8ValidB n.title = true ∧ utf8ValidB n.content = true ∧
      utf8ValidB n.nonce = true) :
    load_notes (some (save_notes notes)) = .ret notes := by
  unfold load_notes
  dsimp only
  rw [if_pos (valid_save_notes hwf), from_str_save]
  rfl

/-- C6 witness: a two-note collection, duplicate titles included, with an
escaping-heavy title. -/
theorem C6_store_roundtrip_witness :
    (∀ n ∈ [Note.mk [97, 34, 10] [65, 66] [67, 68], Note.mk [97] [33] [33]],
      utf8ValidB n.title = true ∧ utf8ValidB n.content = true ∧
        utf8ValidB n.nonce = true) ∧
    load_notes (some (save_notes [Note.mk [97, 34, 10] [65, 66] [67, 68],
      Note.mk [97] [33] [33]])) =
      .ret [Note.mk [97, 34, 10] [65, 66] [67, 68], Note.mk [97] [33] [33]] :=
  ⟨by decide,
   C6_store_roundtrip [Note.mk [97, 34, 10] [65, 66] [67, 68], Note.mk [97] [33] [33]]
     (by decide)⟩

/-- C7 as stated is false on one point: a vault file whose bytes are not
valid UTF-8 cannot be parsed as the expected JSON, yet load_notes does not
return the empty collection there - read_to_string's unwrap panics. -/
theorem C7_counterexample : load_notes (some [255]) = .panic := by decide

/-- C7 amended: an absent file loads as the empty collection; a present
file that is valid UTF-8 but does not parse as a note collection loads as
the empty collection; a present file that is not valid UTF-8 panics; and
no partial parse is ever returned - a loaded collection is either empty or
the full parse of the file. -/
theorem C7_amended :
    load_notes none = .ret [] ∧
    (∀ bytes, utf8ValidB bytes = true → from_str_notes bytes = none →
      load_notes (some bytes) = .ret []) ∧
    (∀ bytes, utf8ValidB bytes = false → load_notes (some bytes) = .panic) ∧
    (∀ bytes l, load_notes (some bytes) = .ret l →
      l = [] ∨ from_str_notes bytes = some l) := by
  refine ⟨rfl, ?_, ?_, ?_⟩
  · intro bytes hv hp
    unfold load_notes
    dsimp only
    rw [if_pos hv, hp]
    rfl
  · intro bytes hv
    unfold load_notes
    dsimp only
    rw [if_neg (by simp [hv])]
  · intro bytes l hl
    unfold load_notes at hl
    dsimp only at hl
    split at hl
    · cases hp : from_str_notes bytes with
      | none => rw [hp] at hl; cases hl; exact Or.inl rfl
      | some l2 =>
        rw [hp] at hl
        cases hl
        exact Or.inr rfl
    · cases hl

/-- C7 witness: a one-byte file that is valid UTF-8 but not JSON loads as
the empty collection. -/
theorem C7_amended_witness :
    (utf8ValidB [104] = true ∧ from_str_notes [104] = none) ∧
    load_notes (some [104]) = .ret [] :=
  ⟨⟨by decide, by decide⟩, C7_amended.2.1 [104] (by decide) (by decide)⟩
